import Mathlib

/-!
Verification of the document-AST normalization core and the renderer dispatch
of the `red_tape_kit` library.

The Python values that can appear anywhere a `BlockElement`, `InlineElement`
or table cell is expected are modelled by one inductive type `RawValue`,
mirroring the dynamic typing of the source: the sugar forms (`pyStr`,
`pyList`, `pyDict`) stand for bare `str`, `list` and `dict` values, the
remaining constructors stand one-for-one for the dataclasses of
`red_tape_kit/doc_ast.py`, and `unrecognized` stands for an object of any
class outside the module (such objects have no `normalized` method).
Binary streams (`BinaryIO` fields `content_io` / `image_io`) are modelled by
an opaque token: Python compares them by identity, so distinct tokens stand
for distinct stream objects.

Fallible Python code is modelled in the `Except PyError` monad; the error
constructors name the Python exception class that the corresponding source
line raises.
-/

namespace RedTapeKit

/-- The two members of the `TableCellSpan` enum in doc_ast.py. -/
inductive SpanKind : Type
  | row
  | column
deriving DecidableEq, Repr

/-- A dynamic Python value in any document-element position of doc_ast.py.
`pyStr`, `pyList`, `pyDict` are the sugar forms; `unrecognized` is an object
of a class with no `normalized` method (int, None, ...). `ElementaryTable`
carries its `rows: List[List[TableCell]]` field.  -/
inductive RawValue : Type
  | pyStr (s : String)
  | pyList (items : List RawValue)
  | pyDict (items : List (RawValue × RawValue))
  | Text (s : String)
  | InlineSequence (items : List RawValue)
  | Attachment (content_io : Nat) (basename : String) (txt : RawValue)
  | Section (title : RawValue) (body : RawValue)
  | Sequence (items : List RawValue)
  | Paragraph (txt : RawValue)
  | Table (head : RawValue) (body : RawValue)
  | ElementaryTable (rows : List (List RawValue))
  | UnorderedList (items : List RawValue)
  | DefinitionList (items : List (RawValue × RawValue))
  | Image (image_io : Nat) (image_format : String) (caption : RawValue)
  | TableCellSpan (kind : SpanKind)
  | unrecognized (tag : Nat)

mutual

/-- Python `==` on the modelled values: structural field-by-field equality,
as the generated dataclass `__eq__` methods, list/dict equality and enum
identity perform; streams compare by identity (token equality). -/
def beqRV : RawValue → RawValue → Bool
  | .pyStr a, .pyStr b => a == b
  | .pyList a, .pyList b => beqRVList a b
  | .pyDict a, .pyDict b => beqRVPairs a b
  | .Text a, .Text b => a == b
  | .InlineSequence a, .InlineSequence b => beqRVList a b
  | .Attachment io1 b1 t1, .Attachment io2 b2 t2 => io1 == io2 && b1 == b2 && beqRV t1 t2
  | .Section t1 b1, .Section t2 b2 => beqRV t1 t2 && beqRV b1 b2
  | .Sequence a, .Sequence b => beqRVList a b
  | .Paragraph a, .Paragraph b => beqRV a b
  | .Table h1 b1, .Table h2 b2 => beqRV h1 h2 && beqRV b1 b2
  | .ElementaryTable a, .ElementaryTable b => beqRVRows a b
  | .UnorderedList a, .UnorderedList b => beqRVList a b
  | .DefinitionList a, .DefinitionList b => beqRVPairs a b
  | .Image io1 f1 c1, .Image io2 f2 c2 => io1 == io2 && f1 == f2 && beqRV c1 c2
  | .TableCellSpan k1, .TableCellSpan k2 => k1 == k2
  | .unrecognized a, .unrecognized b => a == b
  | _, _ => false

def beqRVList : List RawValue → List RawValue → Bool
  | [], [] => true
  | x :: xs, y :: ys => beqRV x y && beqRVList xs ys
  | _, _ => false

def beqRVPairs : List (RawValue × RawValue) → List (RawValue × RawValue) → Bool
  | [], [] => true
  | (k1, v1) :: xs, (k2, v2) :: ys => beqRV k1 k2 && beqRV v1 v2 && beqRVPairs xs ys
  | _, _ => false

def beqRVRows : List (List RawValue) → List (List RawValue) → Bool
  | [], [] => true
  | x :: xs, y :: ys => beqRVList x y && beqRVRows xs ys
  | _, _ => false

end

theorem beqRVList_iff (xs : List RawValue)
    (ih : ∀ x ∈ xs, ∀ y, beqRV x y = true ↔ x = y) :
    ∀ ys, beqRVList xs ys = true ↔ xs = ys := by
  induction xs with
  | nil => intro ys; cases ys <;> simp [beqRVList]
  | cons x xs tail_ih =>
    intro ys
    cases ys with
    | nil => simp [beqRVList]
    | cons y ys =>
      simp only [beqRVList, Bool.and_eq_true, List.cons.injEq]
      rw [ih x (by simp), tail_ih (fun z hz => ih z (by simp [hz])) ys]

theorem beqRVPairs_iff (xs : List (RawValue × RawValue))
    (ih : ∀ p ∈ xs, ∀ y, (beqRV p.1 y = true ↔ p.1 = y) ∧ (beqRV p.2 y = true ↔ p.2 = y)) :
    ∀ ys, beqRVPairs xs ys = true ↔ xs = ys := by
  induction xs with
  | nil => intro ys; cases ys <;> simp [beqRVPairs]
  | cons x xs tail_ih =>
    intro ys
    obtain ⟨k1, v1⟩ := x
    cases ys with
    | nil => simp [beqRVPairs]
    | cons y ys =>
      obtain ⟨k2, v2⟩ := y
      simp only [beqRVPairs, Bool.and_eq_true, List.cons.injEq, Prod.mk.injEq]
      rw [(ih (k1, v1) (by simp) k2).1, (ih (k1, v1) (by simp) v2).2,
        tail_ih (fun z hz => ih z (by simp [hz])) ys]

theorem beqRVRows_iff (xs : List (List RawValue))
    (ih : ∀ row ∈ xs, ∀ x ∈ row, ∀ y, beqRV x y = true ↔ x = y) :
    ∀ ys, beqRVRows xs ys = true ↔ xs = ys := by
  induction xs with
  | nil => intro ys; cases ys <;> simp [beqRVRows]
  | cons x xs tail_ih =>
    intro ys
    cases ys with
    | nil => simp [beqRVRows]
    | cons y ys =>
      simp only [beqRVRows, Bool.and_eq_true, List.cons.injEq]
      rw [beqRVList_iff x (ih x (by simp)) y,
        tail_ih (fun z hz => ih z (by simp [hz])) ys]

theorem beqRV_iff : ∀ (a b : RawValue), beqRV a b = true ↔ a = b := by
  have main : ∀ (n : Nat) (a : RawValue), sizeOf a ≤ n → ∀ b, beqRV a b = true ↔ a = b := by
    intro n
    induction n with
    | zero =>
      intro a ha
      exfalso
      cases a <;> simp_arith at ha
    | succ n ih =>
      intro a ha b
      have hmem : ∀ (l : List RawValue), sizeOf l ≤ n + 1 →
          ∀ x ∈ l, ∀ y, beqRV x y = true ↔ x = y := by
        intro l hl x hx y
        have := List.sizeOf_lt_of_mem hx
        exact ih x (by omega) y
      have hmemp : ∀ (l : List (RawValue × RawValue)), sizeOf l ≤ n + 1 →
          ∀ p ∈ l, ∀ y, (beqRV p.1 y = true ↔ p.1 = y) ∧ (beqRV p.2 y = true ↔ p.2 = y) := by
        intro l hl p hp y
        have h1 := List.sizeOf_lt_of_mem hp
        obtain ⟨k, v⟩ := p
        have h2 : sizeOf (k, v) = 1 + sizeOf k + sizeOf v := rfl
        exact ⟨ih k (by omega) y, ih v (by omega) y⟩
      have hmemr : ∀ (l : List (List RawValue)), sizeOf l ≤ n + 1 →
          ∀ row ∈ l, ∀ x ∈ row, ∀ y, beqRV x y = true ↔ x = y := by
        intro l hl row hrow x hx y
        have h1 := List.sizeOf_lt_of_mem hrow
        have h2 := List.sizeOf_lt_of_mem hx
        exact ih x (by omega) y
      cases a <;> cases b <;>
        simp only [beqRV, Bool.and_eq_true, beq_iff_eq, RawValue.pyStr.injEq,
          RawValue.pyList.injEq, RawValue.pyDict.injEq, RawValue.Text.injEq,
          RawValue.InlineSequence.injEq, RawValue.Attachment.injEq, RawValue.Section.injEq,
          RawValue.Sequence.injEq, RawValue.Paragraph.injEq, RawValue.Table.injEq,
          RawValue.ElementaryTable.injEq, RawValue.UnorderedList.injEq,
          RawValue.DefinitionList.injEq, RawValue.Image.injEq, RawValue.TableCellSpan.injEq,
          RawValue.unrecognized.injEq, reduceCtorEq, iff_self, Bool.false_eq_true, false_iff,
          not_false_eq_true] <;>
        try trivial
      case pyList.pyList xs ys =>
        exact beqRVList_iff xs (hmem xs (by simp_arith at ha ⊢; omega)) ys
      case pyDict.pyDict xs ys =>
        exact beqRVPairs_iff xs (hmemp xs (by simp_arith at ha ⊢; omega)) ys
      case InlineSequence.InlineSequence xs ys =>
        exact beqRVList_iff xs (hmem xs (by simp_arith at ha ⊢; omega)) ys
      case Attachment.Attachment io1 b1 t1 io2 b2 t2 =>
        rw [ih t1 (by simp_arith at ha; omega) t2]
        tauto
      case Section.Section t1 b1 t2 b2 =>
        rw [ih t1 (by simp_arith at ha; omega) t2, ih b1 (by simp_arith at ha; omega) b2]
      case Sequence.Sequence xs ys =>
        exact beqRVList_iff xs (hmem xs (by simp_arith at ha ⊢; omega)) ys
      case Paragraph.Paragraph x y =>
        exact ih x (by simp_arith at ha; omega) y
      case Table.Table h1 b1 h2 b2 =>
        rw [ih h1 (by simp_arith at ha; omega) h2, ih b1 (by simp_arith at ha; omega) b2]
      case ElementaryTable.ElementaryTable xs ys =>
        exact beqRVRows_iff xs (hmemr xs (by simp_arith at ha ⊢; omega)) ys
      case UnorderedList.UnorderedList xs ys =>
        exact beqRVList_iff xs (hmem xs (by simp_arith at ha ⊢; omega)) ys
      case DefinitionList.DefinitionList xs ys =>
        exact beqRVPairs_iff xs (hmemp xs (by simp_arith at ha ⊢; omega)) ys
      case Image.Image io1 f1 c1 io2 f2 c2 =>
        rw [ih c1 (by simp_arith at ha; omega) c2]
        tauto
  intro a b
  exact main (sizeOf a) a (le_refl _) b

instance : DecidableEq RawValue := fun a b =>
  decidable_of_iff (beqRV a b = true) (beqRV_iff a b)

instance {ε α : Type} [DecidableEq ε] [DecidableEq α] : DecidableEq (Except ε α) := fun x y =>
  match x, y with
  | .ok a, .ok b => if h : a = b then .isTrue (by rw [h]) else .isFalse (by simp [h])
  | .error a, .error b => if h : a = b then .isTrue (by rw [h]) else .isFalse (by simp [h])
  | .ok _, .error _ => .isFalse (by simp)
  | .error _, .ok _ => .isFalse (by simp)

/-- Python exceptions that the modelled code can raise. -/
inductive PyError : Type
  | attributeError
  | typeError
  | valueError
  | keyError
  | assertionError
deriving DecidableEq, Repr

/-- Python hashability of the modelled values.  `str` and enum members are
hashable; the frozen dataclasses `Text` and `Attachment` hash their fields
(`Attachment` is hashable iff its `text` field is, its stream hashing by
identity); `InlineSequence` is a frozen dataclass with a `list` field, so
`hash` raises; lists and dicts are unhashable; the non-frozen `@dataclass`
classes (`Section`, `Paragraph`, ...) define `__eq__`, which sets
`__hash__ = None`, so they are unhashable; arbitrary foreign objects use the
default identity hash. -/
def hashable : RawValue → Bool
  | .pyStr _ => true
  | .Text _ => true
  | .TableCellSpan _ => true
  | .unrecognized _ => true
  | .Attachment _ _ t => hashable t
  | _ => false

/-- Assignment `d[k] = v` on a Python dict modelled as an insertion-ordered
association list: an existing equal key keeps its position and gets the new
value, a new key is appended. -/
def dictInsert : List (RawValue × RawValue) → RawValue → RawValue → List (RawValue × RawValue)
  | [], k, v => [(k, v)]
  | (k0, v0) :: rest, k, v =>
      if k0 = k then (k0, v) :: rest else (k0, v0) :: dictInsert rest k v

mutual

/-- doc_ast.normalized_block: dispatch on the runtime type of the element, in
the source's order (str, dict, list, InlineElement, fallback to the
element's own `normalized()` method). -/
def normalized_block : RawValue → Except PyError RawValue
  | .pyStr s => do pure (.Paragraph (← normalized_inline (.pyStr s)))
  | .pyDict items => methodNormalized (.DefinitionList items)
  | .pyList items => methodNormalized (.Sequence items)
  | .Text s => do pure (.Paragraph (← normalized_inline (.Text s)))
  | .InlineSequence items => do pure (.Paragraph (← normalized_inline (.InlineSequence items)))
  | .Attachment io bn t => do pure (.Paragraph (← normalized_inline (.Attachment io bn t)))
  | e => methodNormalized e
termination_by e => (sizeOf e, 3)

/-- doc_ast.normalized_inline: str becomes Text, list becomes InlineSequence,
anything else falls back to the element's own `normalized()` method. -/
def normalized_inline : RawValue → Except PyError RawValue
  | .pyStr s => pure (.Text s)
  | .pyList items => do pure (.InlineSequence (← normInlineList items))
  | e => methodNormalized e
termination_by e => (sizeOf e, 2)

/-- The dynamic dispatch of the `normalized()` method call that both fallback
branches perform: each dataclass's own `normalized` body, and AttributeError
for values of a type that has no such method (str, list, dict, and foreign
objects). -/
def methodNormalized : RawValue → Except PyError RawValue
  | .pyStr _ => throw .attributeError
  | .pyList _ => throw .attributeError
  | .pyDict _ => throw .attributeError
  | .unrecognized _ => throw .attributeError
  | .Text s => pure (.Text s)
  | .InlineSequence items => do pure (.InlineSequence (← normInlineList items))
  | .Attachment io bn t => do pure (.Attachment io bn (← normalized_inline t))
  | .Section t b => do pure (.Section (← normalized_inline t) (← normalized_block b))
  | .Sequence items => do pure (.Sequence (← normBlockList items))
  | .Paragraph t => do pure (.Paragraph (← normalized_inline t))
  | .Table h b => do pure (.Table (← tableSide h) (← tableSide b))
  | .ElementaryTable rows => do pure (.ElementaryTable (← normRows rows))
  | .UnorderedList items => do pure (.UnorderedList (← normBlockList items))
  | .DefinitionList items => do pure (.DefinitionList (← normDictItems [] items))
  | .Image io fmt c => do pure (.Image io fmt (← normalized_inline c))
  | .TableCellSpan k => pure (.TableCellSpan k)
termination_by e => (sizeOf e, 0)

/-- Table.normalized on one side (head or body): a bare list is first wrapped
in `ElementaryTable(rows=...)`, then the side's `normalized()` method runs.
The wrapped rows are themselves lists, per the `List[List[TableCell]]` type
of the field; a non-list row raises when iterated. -/
def tableSide : RawValue → Except PyError RawValue
  | .pyList items => do pure (.ElementaryTable (← normSugarRows items))
  | e => methodNormalized e
termination_by e => (sizeOf e, 1)

/-- The list comprehension `[normalized_block(item) for item in items]`. -/
def normBlockList : List RawValue → Except PyError (List RawValue)
  | [] => pure []
  | x :: rest => do pure ((← normalized_block x) :: (← normBlockList rest))
termination_by l => (sizeOf l, 0)

/-- The list comprehension `[normalized_inline(item) for item in items]`. -/
def normInlineList : List RawValue → Except PyError (List RawValue)
  | [] => pure []
  | x :: rest => do pure ((← normalized_inline x) :: (← normInlineList rest))
termination_by l => (sizeOf l, 0)

/-- ElementaryTable.normalized: normalize every cell of every row. -/
def normRows : List (List RawValue) → Except PyError (List (List RawValue))
  | [] => pure []
  | row :: rest => do pure ((← normInlineList row) :: (← normRows rest))
termination_by rows => (sizeOf rows, 0)

/-- Rows supplied through the bare-list sugar of Table.normalized: each row
must itself be a list of cells. -/
def normSugarRows : List RawValue → Except PyError (List (List RawValue))
  | [] => pure []
  | .pyList cells :: rest => do pure ((← normInlineList cells) :: (← normSugarRows rest))
  | _ :: _ => throw .typeError
termination_by rows => (sizeOf rows, 0)

/-- DefinitionList.normalized: the dict comprehension
`{normalized_inline(k): normalized_block(v) for k, v in items}`, building a
fresh dict pair by pair.  Inserting under an unhashable normalized key
raises TypeError, exactly as `dict.__setitem__` does. -/
def normDictItems (acc : List (RawValue × RawValue)) :
    List (RawValue × RawValue) → Except PyError (List (RawValue × RawValue))
  | [] => pure acc
  | (k, v) :: rest => do
      let k2 ← normalized_inline k
      let v2 ← normalized_block v
      if hashable k2 then normDictItems (dictInsert acc k2 v2) rest
      else throw .typeError
termination_by l => (sizeOf l, 0)

end

/-- Is the value an instance of an `InlineElement` subclass (`Text`,
`InlineSequence`, `Attachment`)? -/
def isInlineTop : RawValue → Bool
  | .Text _ => true
  | .InlineSequence _ => true
  | .Attachment _ _ _ => true
  | _ => false

/-- Does the association list modelling a dict contain the key? -/
def hasKey : List (RawValue × RawValue) → RawValue → Bool
  | [], _ => false
  | (k0, _) :: rest, k => k0 = k || hasKey rest k

/-- Are the keys of the association list pairwise distinct (as every list
modelling an actual Python dict has)? -/
def distinctKeyPairs : List (RawValue × RawValue) → Bool
  | [] => true
  | (k, _) :: rest => !hasKey rest k && distinctKeyPairs rest

mutual

/-- Normal forms of the `normalized()` method dispatch: the value is built
from the module's own classes only (no sugar survives anywhere), inline
fields were produced by `normalized_inline`, block fields by
`normalized_block` (so an `InlineElement` can never sit in a block field),
and dict items have hashable, pairwise-distinct keys. -/
def methodNF : RawValue → Bool
  | .pyStr _ => false
  | .pyList _ => false
  | .pyDict _ => false
  | .unrecognized _ => false
  | .Text _ => true
  | .InlineSequence items => nfList items
  | .Attachment _ _ t => methodNF t
  | .Section t b => methodNF t && (!isInlineTop b && methodNF b)
  | .Sequence items => blockNFList items
  | .Paragraph t => methodNF t
  | .Table h b => methodNF h && methodNF b
  | .ElementaryTable rows => nfRows rows
  | .UnorderedList items => blockNFList items
  | .DefinitionList items => nfPairs items && distinctKeyPairs items
  | .Image _ _ c => methodNF c
  | .TableCellSpan _ => true

def nfList : List RawValue → Bool
  | [] => true
  | x :: rest => methodNF x && nfList rest

def blockNFList : List RawValue → Bool
  | [] => true
  | x :: rest => (!isInlineTop x && methodNF x) && blockNFList rest

def nfRows : List (List RawValue) → Bool
  | [] => true
  | row :: rest => nfList row && nfRows rest

def nfPairs : List (RawValue × RawValue) → Bool
  | [] => true
  | (k, v) :: rest => (methodNF k && hashable k && (!isInlineTop v && methodNF v)) && nfPairs rest

end

/-- Normal forms of `normalized_block`: a method normal form that is not an
`InlineElement` at its root. -/
def blockNF (e : RawValue) : Bool := !isInlineTop e && methodNF e

mutual

/-- No sugar value (bare str, bare list, bare dict) and no foreign object
occurs anywhere in the tree: every node is one of the named canonical
variants of doc_ast.py. -/
def noSugar : RawValue → Bool
  | .pyStr _ => false
  | .pyList _ => false
  | .pyDict _ => false
  | .unrecognized _ => false
  | .Text _ => true
  | .InlineSequence items => noSugarList items
  | .Attachment _ _ t => noSugar t
  | .Section t b => noSugar t && noSugar b
  | .Sequence items => noSugarList items
  | .Paragraph t => noSugar t
  | .Table h b => noSugar h && noSugar b
  | .ElementaryTable rows => noSugarRows rows
  | .UnorderedList items => noSugarList items
  | .DefinitionList items => noSugarPairs items
  | .Image _ _ c => noSugar c
  | .TableCellSpan _ => true

def noSugarList : List RawValue → Bool
  | [] => true
  | x :: rest => noSugar x && noSugarList rest

def noSugarRows : List (List RawValue) → Bool
  | [] => true
  | row :: rest => noSugarList row && noSugarRows rest

def noSugarPairs : List (RawValue × RawValue) → Bool
  | [] => true
  | (k, v) :: rest => (noSugar k && noSugar v) && noSugarPairs rest

end

theorem except_bind_ok {α β : Type} (m : Except PyError α) (f : α → Except PyError β) (b : β) :
    (m >>= f) = .ok b ↔ ∃ a, m = .ok a ∧ f a = .ok b := by
  cases m <;> simp [Bind.bind, Except.bind]

theorem except_pure_ok {α : Type} (a b : α) :
    (pure a : Except PyError α) = .ok b ↔ a = b := by
  simp [pure, Except.pure]

theorem except_throw_ok {α : Type} (err : PyError) (b : α) :
    (throw err : Except PyError α) = .ok b ↔ False := by
  simp [throw, throwThe, MonadExceptOf.throw]

/-- Is the value a bare `str`, `list` or `dict`? -/
def isSugarTop : RawValue → Bool
  | .pyStr _ => true
  | .pyList _ => true
  | .pyDict _ => true
  | _ => false

theorem tableSide_eq_method (e : RawValue) (h : ∀ items, e ≠ .pyList items) :
    tableSide e = methodNormalized e := by
  cases e <;> first
    | exact absurd rfl (h _)
    | simp [tableSide]

theorem normalized_block_eq_method (e : RawValue)
    (h1 : isSugarTop e = false) (h2 : isInlineTop e = false) :
    normalized_block e = methodNormalized e := by
  cases e <;> simp_all [isSugarTop, isInlineTop, normalized_block]

theorem normalized_inline_eq_method (e : RawValue)
    (h1 : ∀ s, e ≠ .pyStr s) (h2 : ∀ items, e ≠ .pyList items) :
    normalized_inline e = methodNormalized e := by
  cases e <;> first
    | exact absurd rfl (h1 _)
    | exact absurd rfl (h2 _)
    | simp [normalized_inline]

theorem hasKey_dictInsert (acc : List (RawValue × RawValue)) (k v k2 : RawValue) :
    hasKey (dictInsert acc k v) k2 = (hasKey acc k2 || decide (k = k2)) := by
  induction acc with
  | nil => simp [dictInsert, hasKey]
  | cons p rest ih =>
    obtain ⟨k0, v0⟩ := p
    by_cases h : k0 = k
    · subst h
      simp only [dictInsert, if_pos rfl, hasKey]
      by_cases h2 : k0 = k2 <;> simp [h2]
    · simp only [dictInsert, if_neg h, hasKey, ih]
      by_cases h2 : k0 = k2 <;> simp [h2]

theorem dictInsert_distinct (acc : List (RawValue × RawValue)) (k v : RawValue)
    (h : distinctKeyPairs acc = true) : distinctKeyPairs (dictInsert acc k v) = true := by
  induction acc with
  | nil => simp [dictInsert, distinctKeyPairs, hasKey]
  | cons p rest ih =>
    obtain ⟨k0, v0⟩ := p
    simp only [distinctKeyPairs, Bool.and_eq_true, Bool.not_eq_true'] at h
    by_cases heq : k0 = k
    · subst heq
      simp only [dictInsert, if_pos rfl, distinctKeyPairs, Bool.and_eq_true, Bool.not_eq_true']
      exact h
    · simp only [dictInsert, if_neg heq, distinctKeyPairs, Bool.and_eq_true, Bool.not_eq_true',
        hasKey_dictInsert]
      refine ⟨?_, ih h.2⟩
      simp only [h.1, Bool.false_or, decide_eq_false_iff_not]
      exact fun hh => heq hh.symm

theorem dictInsert_nfPairs (acc : List (RawValue × RawValue)) (k v : RawValue)
    (hacc : nfPairs acc = true) (hk : methodNF k = true) (hh : hashable k = true)
    (hv : (!isInlineTop v && methodNF v) = true) :
    nfPairs (dictInsert acc k v) = true := by
  induction acc with
  | nil => simp_all [dictInsert, nfPairs]
  | cons p rest ih =>
    obtain ⟨k0, v0⟩ := p
    simp only [nfPairs, Bool.and_eq_true] at hacc
    by_cases heq : k0 = k
    · subst heq
      simp only [dictInsert, if_pos rfl, nfPairs, Bool.and_eq_true]
      exact ⟨⟨hacc.1.1, by simp_all⟩, hacc.2⟩
    · simp only [dictInsert, if_neg heq, nfPairs, Bool.and_eq_true]
      exact ⟨hacc.1, ih hacc.2⟩

theorem dictInsert_mem (k v : RawValue) (p : RawValue × RawValue) :
    ∀ (acc : List (RawValue × RawValue)), p ∈ dictInsert acc k v →
      p ∈ acc ∨ (p.1 = k ∧ p.2 = v) := by
  intro acc
  induction acc with
  | nil =>
    intro h
    simp only [dictInsert, List.mem_singleton] at h
    right
    rw [h]
    exact ⟨rfl, rfl⟩
  | cons q rest ih =>
    obtain ⟨k0, v0⟩ := q
    intro h
    by_cases heq : k0 = k
    · subst heq
      have h2 : p = (k0, v) ∨ p ∈ rest := by simpa [dictInsert] using h
      rcases h2 with h2 | h2
      · right; rw [h2]; exact ⟨rfl, rfl⟩
      · left; exact List.mem_cons_of_mem _ h2
    · have h2 : p = (k0, v0) ∨ p ∈ dictInsert rest k v := by
        simpa [dictInsert, if_neg heq] using h
      rcases h2 with h2 | h2
      · left; rw [h2]; exact List.mem_cons_self _ _
      · rcases ih h2 with h3 | h3
        · left; exact List.mem_cons_of_mem _ h3
        · right; exact h3

theorem dictInsert_fresh (acc : List (RawValue × RawValue)) (k v : RawValue)
    (h : hasKey acc k = false) : dictInsert acc k v = acc ++ [(k, v)] := by
  induction acc with
  | nil => simp [dictInsert]
  | cons p rest ih =>
    obtain ⟨k0, v0⟩ := p
    simp only [hasKey, Bool.or_eq_false_iff, decide_eq_false_iff_not] at h
    simp [dictInsert, if_neg h.1, ih h.2]

theorem hasKey_false_forall (l : List (RawValue × RawValue)) (k : RawValue)
    (h : hasKey l k = false) : ∀ p ∈ l, p.1 ≠ k := by
  induction l with
  | nil => simp
  | cons p rest ih =>
    obtain ⟨k0, v0⟩ := p
    simp only [hasKey, Bool.or_eq_false_iff, decide_eq_false_iff_not] at h
    intro q hq
    rcases List.mem_cons.mp hq with h2 | h2
    · subst h2; exact h.1
    · exact ih h.2 q h2

theorem normInlineList_sound (l : List RawValue)
    (ih : ∀ x ∈ l, ∀ c, normalized_inline x = .ok c → methodNF c = true) :
    ∀ out, normInlineList l = .ok out → nfList out = true := by
  induction l with
  | nil =>
    intro out h
    simp only [normInlineList, except_pure_ok] at h
    subst h
    simp [nfList]
  | cons x rest tail_ih =>
    intro out h
    simp only [normInlineList, except_bind_ok, except_pure_ok] at h
    obtain ⟨c, hc, out2, hout2, hout⟩ := h
    subst hout
    simp only [nfList, Bool.and_eq_true]
    exact ⟨ih x (by simp) c hc, tail_ih (fun z hz => ih z (by simp [hz])) out2 hout2⟩

theorem normBlockList_sound (l : List RawValue)
    (ih : ∀ x ∈ l, ∀ c, normalized_block x = .ok c → blockNF c = true) :
    ∀ out, normBlockList l = .ok out → blockNFList out = true := by
  induction l with
  | nil =>
    intro out h
    simp only [normBlockList, except_pure_ok] at h
    subst h
    simp [blockNFList]
  | cons x rest tail_ih =>
    intro out h
    simp only [normBlockList, except_bind_ok, except_pure_ok] at h
    obtain ⟨c, hc, out2, hout2, hout⟩ := h
    subst hout
    simp only [blockNFList, Bool.and_eq_true]
    have h1 := ih x (by simp) c hc
    rw [blockNF, Bool.and_eq_true] at h1
    exact ⟨h1, tail_ih (fun z hz => ih z (by simp [hz])) out2 hout2⟩

theorem normRows_sound (l : List (List RawValue))
    (ih : ∀ row ∈ l, ∀ x ∈ row, ∀ c, normalized_inline x = .ok c → methodNF c = true) :
    ∀ out, normRows l = .ok out → nfRows out = true := by
  induction l with
  | nil =>
    intro out h
    simp only [normRows, except_pure_ok] at h
    subst h
    simp [nfRows]
  | cons row rest tail_ih =>
    intro out h
    simp only [normRows, except_bind_ok, except_pure_ok] at h
    obtain ⟨r2, hr2, out2, hout2, hout⟩ := h
    subst hout
    simp only [nfRows, Bool.and_eq_true]
    exact ⟨normInlineList_sound row (ih row (by simp)) r2 hr2,
      tail_ih (fun z hz => ih z (by simp [hz])) out2 hout2⟩

theorem normSugarRows_sound (l : List RawValue)
    (ih : ∀ r ∈ l, ∀ cells, r = RawValue.pyList cells →
      ∀ x ∈ cells, ∀ c, normalized_inline x = .ok c → methodNF c = true) :
    ∀ out, normSugarRows l = .ok out → nfRows out = true := by
  induction l with
  | nil =>
    intro out h
    simp only [normSugarRows, except_pure_ok] at h
    subst h
    simp [nfRows]
  | cons r rest tail_ih =>
    intro out h
    cases r with
    | pyList cells =>
      simp only [normSugarRows, except_bind_ok, except_pure_ok] at h
      obtain ⟨r2, hr2, out2, hout2, hout⟩ := h
      subst hout
      simp only [nfRows, Bool.and_eq_true]
      exact ⟨normInlineList_sound cells (ih _ (by simp) cells rfl) r2 hr2,
        tail_ih (fun z hz cells2 hz2 => ih z (by simp [hz]) cells2 hz2) out2 hout2⟩
    | pyStr s => simp [normSugarRows, except_throw_ok] at h
    | pyDict a => simp [normSugarRows, except_throw_ok] at h
    | Text a => simp [normSugarRows, except_throw_ok] at h
    | InlineSequence a => simp [normSugarRows, except_throw_ok] at h
    | Attachment a b c => simp [normSugarRows, except_throw_ok] at h
    | Section a b => simp [normSugarRows, except_throw_ok] at h
    | Sequence a => simp [normSugarRows, except_throw_ok] at h
    | Paragraph a => simp [normSugarRows, except_throw_ok] at h
    | Table a b => simp [normSugarRows, except_throw_ok] at h
    | ElementaryTable a => simp [normSugarRows, except_throw_ok] at h
    | UnorderedList a => simp [normSugarRows, except_throw_ok] at h
    | DefinitionList a => simp [normSugarRows, except_throw_ok] at h
    | Image a b c => simp [normSugarRows, except_throw_ok] at h
    | TableCellSpan a => simp [normSugarRows, except_throw_ok] at h
    | unrecognized a => simp [normSugarRows, except_throw_ok] at h

theorem normDictItems_sound (l : List (RawValue × RawValue))
    (ih : ∀ p ∈ l, (∀ c, normalized_inline p.1 = .ok c → methodNF c = true)
        ∧ (∀ c, normalized_block p.2 = .ok c → blockNF c = true)) :
    ∀ acc out, nfPairs acc = true → distinctKeyPairs acc = true →
      normDictItems acc l = .ok out →
      nfPairs out = true ∧ distinctKeyPairs out = true := by
  induction l with
  | nil =>
    intro acc out hacc hdist h
    simp only [normDictItems, except_pure_ok] at h
    subst h
    exact ⟨hacc, hdist⟩
  | cons p rest tail_ih =>
    obtain ⟨k, v⟩ := p
    intro acc out hacc hdist h
    simp only [normDictItems, except_bind_ok] at h
    obtain ⟨k2, hk2, v2, hv2, h⟩ := h
    by_cases hh : hashable k2 = true
    · rw [if_pos hh] at h
      have hk := (ih (k, v) (by simp)).1 k2 hk2
      have hv := (ih (k, v) (by simp)).2 v2 hv2
      rw [blockNF] at hv
      exact tail_ih (fun z hz => ih z (by simp [hz])) _ out
        (dictInsert_nfPairs acc k2 v2 hacc hk hh hv)
        (dictInsert_distinct acc k2 v2 hdist) h
    · rw [if_neg hh] at h
      simp [except_throw_ok] at h

theorem norm_sound_all : ∀ (n : Nat) (e : RawValue), sizeOf e ≤ n →
    (∀ c, methodNormalized e = .ok c → methodNF c = true ∧ isInlineTop c = isInlineTop e)
    ∧ (∀ c, tableSide e = .ok c → methodNF c = true)
    ∧ (∀ c, normalized_inline e = .ok c → methodNF c = true)
    ∧ (∀ c, normalized_block e = .ok c → blockNF c = true) := by
  intro n
  induction n with
  | zero =>
    intro e he
    exfalso
    cases e <;> simp_arith at he
  | succ n ih =>
    intro e he
    have pwInline : ∀ (l : List RawValue), sizeOf l ≤ n →
        ∀ x ∈ l, ∀ c, normalized_inline x = .ok c → methodNF c = true := by
      intro l hl x hx
      have := List.sizeOf_lt_of_mem hx
      exact ((ih x (by omega)).2.2.1)
    have pwBlock : ∀ (l : List RawValue), sizeOf l ≤ n →
        ∀ x ∈ l, ∀ c, normalized_block x = .ok c → blockNF c = true := by
      intro l hl x hx
      have := List.sizeOf_lt_of_mem hx
      exact ((ih x (by omega)).2.2.2)
    have pwRows : ∀ (l : List (List RawValue)), sizeOf l ≤ n →
        ∀ row ∈ l, ∀ x ∈ row, ∀ c, normalized_inline x = .ok c → methodNF c = true := by
      intro l hl row hrow x hx
      have h1 := List.sizeOf_lt_of_mem hrow
      have h2 := List.sizeOf_lt_of_mem hx
      exact ((ih x (by omega)).2.2.1)
    have pwPairs : ∀ (l : List (RawValue × RawValue)), sizeOf l ≤ n →
        ∀ p ∈ l, (∀ c, normalized_inline p.1 = .ok c → methodNF c = true)
          ∧ (∀ c, normalized_block p.2 = .ok c → blockNF c = true) := by
      intro l hl p hp
      have h1 := List.sizeOf_lt_of_mem hp
      obtain ⟨k, v⟩ := p
      have h2 : sizeOf (k, v) = 1 + sizeOf k + sizeOf v := rfl
      exact ⟨(ih k (by omega)).2.2.1, (ih v (by omega)).2.2.2⟩
    have hm : ∀ c, methodNormalized e = .ok c →
        methodNF c = true ∧ isInlineTop c = isInlineTop e := by
      intro c h
      cases e with
      | pyStr s => simp [methodNormalized, except_throw_ok] at h
      | pyList items => simp [methodNormalized, except_throw_ok] at h
      | pyDict items => simp [methodNormalized, except_throw_ok] at h
      | unrecognized t => simp [methodNormalized, except_throw_ok] at h
      | Text s =>
        simp only [methodNormalized, except_pure_ok] at h
        subst h
        exact ⟨by simp [methodNF], rfl⟩
      | InlineSequence items =>
        simp only [methodNormalized, except_bind_ok, except_pure_ok] at h
        obtain ⟨out, hout, hc⟩ := h
        subst hc
        have hs : sizeOf items ≤ n := by simp_arith at he; omega
        refine ⟨?_, rfl⟩
        simp only [methodNF]
        exact normInlineList_sound items (pwInline items hs) out hout
      | Attachment io bn t =>
        simp only [methodNormalized, except_bind_ok, except_pure_ok] at h
        obtain ⟨t2, ht2, hc⟩ := h
        subst hc
        have hs : sizeOf t ≤ n := by simp_arith at he; omega
        refine ⟨?_, rfl⟩
        simp only [methodNF]
        exact (ih t hs).2.2.1 t2 ht2
      | Section t b =>
        simp only [methodNormalized, except_bind_ok, except_pure_ok] at h
        obtain ⟨t2, ht2, b2, hb2, hc⟩ := h
        subst hc
        have hst : sizeOf t ≤ n := by simp_arith at he; omega
        have hsb : sizeOf b ≤ n := by simp_arith at he; omega
        have h1 := (ih t hst).2.2.1 t2 ht2
        have h2 := (ih b hsb).2.2.2 b2 hb2
        rw [blockNF, Bool.and_eq_true] at h2
        refine ⟨?_, rfl⟩
        simp only [methodNF, Bool.and_eq_true]
        exact ⟨h1, h2⟩
      | Sequence items =>
        simp only [methodNormalized, except_bind_ok, except_pure_ok] at h
        obtain ⟨out, hout, hc⟩ := h
        subst hc
        have hs : sizeOf items ≤ n := by simp_arith at he; omega
        refine ⟨?_, rfl⟩
        simp only [methodNF]
        exact normBlockList_sound items (pwBlock items hs) out hout
      | Paragraph t =>
        simp only [methodNormalized, except_bind_ok, except_pure_ok] at h
        obtain ⟨t2, ht2, hc⟩ := h
        subst hc
        have hs : sizeOf t ≤ n := by simp_arith at he; omega
        refine ⟨?_, rfl⟩
        simp only [methodNF]
        exact (ih t hs).2.2.1 t2 ht2
      | Table hd bd =>
        simp only [methodNormalized, except_bind_ok, except_pure_ok] at h
        obtain ⟨h2, hh2, b2, hb2, hc⟩ := h
        subst hc
        have hsh : sizeOf hd ≤ n := by simp_arith at he; omega
        have hsb : sizeOf bd ≤ n := by simp_arith at he; omega
        refine ⟨?_, rfl⟩
        simp only [methodNF, Bool.and_eq_true]
        exact ⟨(ih hd hsh).2.1 h2 hh2, (ih bd hsb).2.1 b2 hb2⟩
      | ElementaryTable rows =>
        simp only [methodNormalized, except_bind_ok, except_pure_ok] at h
        obtain ⟨out, hout, hc⟩ := h
        subst hc
        have hs : sizeOf rows ≤ n := by simp_arith at he; omega
        refine ⟨?_, rfl⟩
        simp only [methodNF]
        exact normRows_sound rows (pwRows rows hs) out hout
      | UnorderedList items =>
        simp only [methodNormalized, except_bind_ok, except_pure_ok] at h
        obtain ⟨out, hout, hc⟩ := h
        subst hc
        have hs : sizeOf items ≤ n := by simp_arith at he; omega
        refine ⟨?_, rfl⟩
        simp only [methodNF]
        exact normBlockList_sound items (pwBlock items hs) out hout
      | DefinitionList items =>
        simp only [methodNormalized, except_bind_ok, except_pure_ok] at h
        obtain ⟨out, hout, hc⟩ := h
        subst hc
        have hs : sizeOf items ≤ n := by simp_arith at he; omega
        have hres := normDictItems_sound items (pwPairs items hs) [] out
          (by simp [nfPairs]) (by simp [distinctKeyPairs]) hout
        refine ⟨?_, rfl⟩
        simp only [methodNF, Bool.and_eq_true]
        exact hres
      | Image io fmt cap =>
        simp only [methodNormalized, except_bind_ok, except_pure_ok] at h
        obtain ⟨c2, hc2, hc⟩ := h
        subst hc
        have hs : sizeOf cap ≤ n := by simp_arith at he; omega
        refine ⟨?_, rfl⟩
        simp only [methodNF]
        exact (ih cap hs).2.2.1 c2 hc2
      | TableCellSpan k =>
        simp only [methodNormalized, except_pure_ok] at h
        subst h
        exact ⟨by simp [methodNF], rfl⟩
    have hsugar : ∀ (items : List RawValue), sizeOf items ≤ n →
        ∀ c, tableSide (.pyList items) = .ok c → methodNF c = true := by
      intro items hs c h
      simp only [tableSide, except_bind_ok, except_pure_ok] at h
      obtain ⟨out, hout, hc⟩ := h
      subst hc
      have pw : ∀ r ∈ items, ∀ cells, r = RawValue.pyList cells →
          ∀ x ∈ cells, ∀ c2, normalized_inline x = .ok c2 → methodNF c2 = true := by
        intro r hr cells hcells x hx
        have h1 := List.sizeOf_lt_of_mem hr
        subst hcells
        have h2 := List.sizeOf_lt_of_mem hx
        have h3 : sizeOf (RawValue.pyList cells) = 1 + sizeOf cells := by simp
        exact (ih x (by omega)).2.2.1
      simp only [methodNF]
      exact normSugarRows_sound items pw out hout
    have ht : ∀ c, tableSide e = .ok c → methodNF c = true := by
      intro c h
      cases e with
      | pyList items =>
        exact hsugar items (by simp_arith at he; omega) c h
      | pyStr a => exact (hm c (by rwa [tableSide_eq_method (.pyStr a) (by intro i hi; cases hi)] at h)).1
      | pyDict a => exact (hm c (by rwa [tableSide_eq_method (.pyDict a) (by intro i hi; cases hi)] at h)).1
      | Text a => exact (hm c (by rwa [tableSide_eq_method (.Text a) (by intro i hi; cases hi)] at h)).1
      | InlineSequence a => exact (hm c (by rwa [tableSide_eq_method (.InlineSequence a) (by intro i hi; cases hi)] at h)).1
      | Attachment a b t => exact (hm c (by rwa [tableSide_eq_method (.Attachment a b t) (by intro i hi; cases hi)] at h)).1
      | Section a b => exact (hm c (by rwa [tableSide_eq_method (.Section a b) (by intro i hi; cases hi)] at h)).1
      | Sequence a => exact (hm c (by rwa [tableSide_eq_method (.Sequence a) (by intro i hi; cases hi)] at h)).1
      | Paragraph a => exact (hm c (by rwa [tableSide_eq_method (.Paragraph a) (by intro i hi; cases hi)] at h)).1
      | Table a b => exact (hm c (by rwa [tableSide_eq_method (.Table a b) (by intro i hi; cases hi)] at h)).1
      | ElementaryTable a => exact (hm c (by rwa [tableSide_eq_method (.ElementaryTable a) (by intro i hi; cases hi)] at h)).1
      | UnorderedList a => exact (hm c (by rwa [tableSide_eq_method (.UnorderedList a) (by intro i hi; cases hi)] at h)).1
      | DefinitionList a => exact (hm c (by rwa [tableSide_eq_method (.DefinitionList a) (by intro i hi; cases hi)] at h)).1
      | Image a b c2 => exact (hm c (by rwa [tableSide_eq_method (.Image a b c2) (by intro i hi; cases hi)] at h)).1
      | TableCellSpan a => exact (hm c (by rwa [tableSide_eq_method (.TableCellSpan a) (by intro i hi; cases hi)] at h)).1
      | unrecognized a => exact (hm c (by rwa [tableSide_eq_method (.unrecognized a) (by intro i hi; cases hi)] at h)).1
    have hlist : ∀ (items : List RawValue), sizeOf items ≤ n →
        ∀ c, normalized_inline (.pyList items) = .ok c → methodNF c = true := by
      intro items hs c h
      simp only [normalized_inline, except_bind_ok, except_pure_ok] at h
      obtain ⟨out, hout, hc⟩ := h
      subst hc
      simp only [methodNF]
      exact normInlineList_sound items (pwInline items hs) out hout
    have hi2 : ∀ c, normalized_inline e = .ok c → methodNF c = true := by
      intro c h
      cases e with
      | pyStr s =>
        simp only [normalized_inline, except_pure_ok] at h
        subst h
        simp [methodNF]
      | pyList items =>
        exact hlist items (by simp_arith at he; omega) c h
      | pyDict a => exact (hm c (by rwa [normalized_inline_eq_method (.pyDict a) (by intro s hs; cases hs) (by intro i hi; cases hi)] at h)).1
      | Text a => exact (hm c (by rwa [normalized_inline_eq_method (.Text a) (by intro s hs; cases hs) (by intro i hi; cases hi)] at h)).1
      | InlineSequence a => exact (hm c (by rwa [normalized_inline_eq_method (.InlineSequence a) (by intro s hs; cases hs) (by intro i hi; cases hi)] at h)).1
      | Attachment a b t => exact (hm c (by rwa [normalized_inline_eq_method (.Attachment a b t) (by intro s hs; cases hs) (by intro i hi; cases hi)] at h)).1
      | Section a b => exact (hm c (by rwa [normalized_inline_eq_method (.Section a b) (by intro s hs; cases hs) (by intro i hi; cases hi)] at h)).1
      | Sequence a => exact (hm c (by rwa [normalized_inline_eq_method (.Sequence a) (by intro s hs; cases hs) (by intro i hi; cases hi)] at h)).1
      | Paragraph a => exact (hm c (by rwa [normalized_inline_eq_method (.Paragraph a) (by intro s hs; cases hs) (by intro i hi; cases hi)] at h)).1
      | Table a b => exact (hm c (by rwa [normalized_inline_eq_method (.Table a b) (by intro s hs; cases hs) (by intro i hi; cases hi)] at h)).1
      | ElementaryTable a => exact (hm c (by rwa [normalized_inline_eq_method (.ElementaryTable a) (by intro s hs; cases hs) (by intro i hi; cases hi)] at h)).1
      | UnorderedList a => exact (hm c (by rwa [normalized_inline_eq_method (.UnorderedList a) (by intro s hs; cases hs) (by intro i hi; cases hi)] at h)).1
      | DefinitionList a => exact (hm c (by rwa [normalized_inline_eq_method (.DefinitionList a) (by intro s hs; cases hs) (by intro i hi; cases hi)] at h)).1
      | Image a b c2 => exact (hm c (by rwa [normalized_inline_eq_method (.Image a b c2) (by intro s hs; cases hs) (by intro i hi; cases hi)] at h)).1
      | TableCellSpan a => exact (hm c (by rwa [normalized_inline_eq_method (.TableCellSpan a) (by intro s hs; cases hs) (by intro i hi; cases hi)] at h)).1
      | unrecognized a => exact (hm c (by rwa [normalized_inline_eq_method (.unrecognized a) (by intro s hs; cases hs) (by intro i hi; cases hi)] at h)).1
    refine ⟨hm, ht, hi2, ?_⟩
    intro c h
    cases e with
    | pyStr s =>
      simp only [normalized_block, except_bind_ok, except_pure_ok] at h
      obtain ⟨t2, ht2, hc⟩ := h
      subst hc
      have h1 := hi2 t2 ht2
      rw [blockNF]
      simp only [isInlineTop, Bool.not_false, Bool.true_and, methodNF]
      exact h1
    | Text s =>
      simp only [normalized_block, except_bind_ok, except_pure_ok] at h
      obtain ⟨t2, ht2, hc⟩ := h
      subst hc
      have h1 := hi2 t2 ht2
      rw [blockNF]
      simp only [isInlineTop, Bool.not_false, Bool.true_and, methodNF]
      exact h1
    | InlineSequence items =>
      simp only [normalized_block, except_bind_ok, except_pure_ok] at h
      obtain ⟨t2, ht2, hc⟩ := h
      subst hc
      have h1 := hi2 t2 ht2
      rw [blockNF]
      simp only [isInlineTop, Bool.not_false, Bool.true_and, methodNF]
      exact h1
    | Attachment a b t =>
      simp only [normalized_block, except_bind_ok, except_pure_ok] at h
      obtain ⟨t2, ht2, hc⟩ := h
      subst hc
      have h1 := hi2 t2 ht2
      rw [blockNF]
      simp only [isInlineTop, Bool.not_false, Bool.true_and, methodNF]
      exact h1
    | pyDict items =>
      simp only [normalized_block, methodNormalized, except_bind_ok, except_pure_ok] at h
      obtain ⟨out, hout, hc⟩ := h
      subst hc
      have hs : sizeOf items ≤ n := by simp_arith at he; omega
      have hres := normDictItems_sound items (pwPairs items hs) [] out
        (by simp [nfPairs]) (by simp [distinctKeyPairs]) hout
      rw [blockNF]
      simp only [isInlineTop, Bool.not_false, Bool.true_and, methodNF, Bool.and_eq_true]
      exact hres
    | pyList items =>
      simp only [normalized_block, methodNormalized, except_bind_ok, except_pure_ok] at h
      obtain ⟨out, hout, hc⟩ := h
      subst hc
      have hs : sizeOf items ≤ n := by simp_arith at he; omega
      rw [blockNF]
      simp only [isInlineTop, Bool.not_false, Bool.true_and, methodNF]
      exact normBlockList_sound items (pwBlock items hs) out hout
    | Section a b =>
      rw [normalized_block_eq_method (.Section a b) rfl rfl] at h
      have h1 := hm c h
      rw [blockNF]
      have h2 : isInlineTop c = false := by rw [h1.2]; rfl
      simp [h2, h1.1]
    | Sequence a =>
      rw [normalized_block_eq_method (.Sequence a) rfl rfl] at h
      have h1 := hm c h
      rw [blockNF]
      have h2 : isInlineTop c = false := by rw [h1.2]; rfl
      simp [h2, h1.1]
    | Paragraph a =>
      rw [normalized_block_eq_method (.Paragraph a) rfl rfl] at h
      have h1 := hm c h
      rw [blockNF]
      have h2 : isInlineTop c = false := by rw [h1.2]; rfl
      simp [h2, h1.1]
    | Table a b =>
      rw [normalized_block_eq_method (.Table a b) rfl rfl] at h
      have h1 := hm c h
      rw [blockNF]
      have h2 : isInlineTop c = false := by rw [h1.2]; rfl
      simp [h2, h1.1]
    | ElementaryTable a =>
      rw [normalized_block_eq_method (.ElementaryTable a) rfl rfl] at h
      have h1 := hm c h
      rw [blockNF]
      have h2 : isInlineTop c = false := by rw [h1.2]; rfl
      simp [h2, h1.1]
    | UnorderedList a =>
      rw [normalized_block_eq_method (.UnorderedList a) rfl rfl] at h
      have h1 := hm c h
      rw [blockNF]
      have h2 : isInlineTop c = false := by rw [h1.2]; rfl
      simp [h2, h1.1]
    | DefinitionList a =>
      rw [normalized_block_eq_method (.DefinitionList a) rfl rfl] at h
      have h1 := hm c h
      rw [blockNF]
      have h2 : isInlineTop c = false := by rw [h1.2]; rfl
      simp [h2, h1.1]
    | Image a b c2 =>
      rw [normalized_block_eq_method (.Image a b c2) rfl rfl] at h
      have h1 := hm c h
      rw [blockNF]
      have h2 : isInlineTop c = false := by rw [h1.2]; rfl
      simp [h2, h1.1]
    | TableCellSpan a =>
      rw [normalized_block_eq_method (.TableCellSpan a) rfl rfl] at h
      have h1 := hm c h
      rw [blockNF]
      have h2 : isInlineTop c = false := by rw [h1.2]; rfl
      simp [h2, h1.1]
    | unrecognized a =>
      rw [normalized_block_eq_method (.unrecognized a) rfl rfl] at h
      simp [methodNormalized, except_throw_ok] at h

theorem hasKey_append (a b : List (RawValue × RawValue)) (k : RawValue) :
    hasKey (a ++ b) k = (hasKey a k || hasKey b k) := by
  induction a with
  | nil => simp [hasKey]
  | cons p rest ih =>
    obtain ⟨k0, v0⟩ := p
    simp [hasKey, ih, Bool.or_assoc]

theorem nfList_forall (l : List RawValue) (h : nfList l = true) :
    ∀ x ∈ l, methodNF x = true := by
  induction l with
  | nil => simp
  | cons x rest ih =>
    simp only [nfList, Bool.and_eq_true] at h
    intro y hy
    rcases List.mem_cons.mp hy with h2 | h2
    · subst h2; exact h.1
    · exact ih h.2 y h2

theorem blockNFList_forall (l : List RawValue) (h : blockNFList l = true) :
    ∀ x ∈ l, (!isInlineTop x && methodNF x) = true := by
  induction l with
  | nil => simp
  | cons x rest ih =>
    simp only [blockNFList, Bool.and_eq_true] at h
    intro y hy
    rcases List.mem_cons.mp hy with h2 | h2
    · subst h2; simp [h.1.1, h.1.2]
    · exact ih h.2 y h2

theorem nfRows_forall (l : List (List RawValue)) (h : nfRows l = true) :
    ∀ row ∈ l, nfList row = true := by
  induction l with
  | nil => simp
  | cons row rest ih =>
    simp only [nfRows, Bool.and_eq_true] at h
    intro r hr
    rcases List.mem_cons.mp hr with h2 | h2
    · subst h2; exact h.1
    · exact ih h.2 r h2

theorem nfPairs_forall (l : List (RawValue × RawValue)) (h : nfPairs l = true) :
    ∀ p ∈ l, methodNF p.1 = true ∧ hashable p.1 = true
      ∧ (!isInlineTop p.2 && methodNF p.2) = true := by
  induction l with
  | nil => simp
  | cons p rest ih =>
    obtain ⟨k, v⟩ := p
    simp only [nfPairs, Bool.and_eq_true] at h
    obtain ⟨⟨⟨h1, h2⟩, h3, h4⟩, h5⟩ := h
    intro q hq
    rcases List.mem_cons.mp hq with hq2 | hq2
    · subst hq2
      exact ⟨h1, h2, by simp [h3, h4]⟩
    · exact ih h5 q hq2

theorem methodNF_not_sugar (e : RawValue) (h : methodNF e = true) : isSugarTop e = false := by
  cases e <;> simp_all [methodNF, isSugarTop]

theorem methodNF_not_pyStr (e : RawValue) (h : methodNF e = true) : ∀ s, e ≠ .pyStr s := by
  intro s he
  subst he
  simp [methodNF] at h

theorem methodNF_not_pyList (e : RawValue) (h : methodNF e = true) : ∀ l, e ≠ .pyList l := by
  intro l he
  subst he
  simp [methodNF] at h

theorem normInlineList_stable (l : List RawValue)
    (ih : ∀ x ∈ l, normalized_inline x = .ok x) : normInlineList l = .ok l := by
  induction l with
  | nil => simp [normInlineList, pure, Except.pure]
  | cons x rest tail_ih =>
    simp only [normInlineList]
    rw [ih x (by simp), tail_ih (fun z hz => ih z (by simp [hz]))]
    rfl

theorem normBlockList_stable (l : List RawValue)
    (ih : ∀ x ∈ l, normalized_block x = .ok x) : normBlockList l = .ok l := by
  induction l with
  | nil => simp [normBlockList, pure, Except.pure]
  | cons x rest tail_ih =>
    simp only [normBlockList]
    rw [ih x (by simp), tail_ih (fun z hz => ih z (by simp [hz]))]
    rfl

theorem normRows_stable (l : List (List RawValue))
    (ih : ∀ row ∈ l, ∀ x ∈ row, normalized_inline x = .ok x) : normRows l = .ok l := by
  induction l with
  | nil => simp [normRows, pure, Except.pure]
  | cons row rest tail_ih =>
    simp only [normRows]
    rw [normInlineList_stable row (ih row (by simp)),
      tail_ih (fun z hz => ih z (by simp [hz]))]
    rfl

theorem normDictItems_stable (l : List (RawValue × RawValue))
    (ih : ∀ p ∈ l, normalized_inline p.1 = .ok p.1 ∧ normalized_block p.2 = .ok p.2
      ∧ hashable p.1 = true)
    (hdist : distinctKeyPairs l = true) :
    ∀ acc, (∀ p ∈ l, hasKey acc p.1 = false) → normDictItems acc l = .ok (acc ++ l) := by
  induction l with
  | nil =>
    intro acc hfresh
    simp [normDictItems, pure, Except.pure]
  | cons p rest tail_ih =>
    obtain ⟨k, v⟩ := p
    intro acc hfresh
    simp only [normDictItems]
    rw [(ih (k, v) (by simp)).1, (ih (k, v) (by simp)).2.1]
    have hb : (do
        let k2 ← (Except.ok k : Except PyError RawValue)
        let v2 ← (Except.ok v : Except PyError RawValue)
        if hashable k2 then normDictItems (dictInsert acc k2 v2) rest
        else throw .typeError) =
        (if hashable k then normDictItems (dictInsert acc k v) rest
         else throw .typeError) := rfl
    rw [hb, if_pos ((ih (k, v) (by simp)).2.2)]
    rw [dictInsert_fresh acc k v (hfresh (k, v) (by simp))]
    simp only [distinctKeyPairs, Bool.and_eq_true, Bool.not_eq_true'] at hdist
    rw [tail_ih (fun z hz => ih z (by simp [hz])) hdist.2]
    · simp
    · intro q hq
      rw [hasKey_append]
      have h1 := hfresh q (by simp [hq])
      have h2 : hasKey [(k, v)] q.1 = false := by
        simp only [hasKey, Bool.or_false, decide_eq_false_iff_not]
        intro hh
        exact (hasKey_false_forall rest k hdist.1 q hq) hh.symm
      simp [h1, h2]

theorem norm_stable_all : ∀ (n : Nat) (e : RawValue), sizeOf e ≤ n →
    (methodNF e = true → methodNormalized e = .ok e)
    ∧ (methodNF e = true → tableSide e = .ok e)
    ∧ (methodNF e = true → normalized_inline e = .ok e)
    ∧ (blockNF e = true → normalized_block e = .ok e) := by
  intro n
  induction n with
  | zero =>
    intro e he
    exfalso
    cases e <;> simp_arith at he
  | succ n ih =>
    intro e he
    have pwInline : ∀ (l : List RawValue), sizeOf l ≤ n →
        ∀ x ∈ l, methodNF x = true → normalized_inline x = .ok x := by
      intro l hl x hx
      have := List.sizeOf_lt_of_mem hx
      exact (ih x (by omega)).2.2.1
    have pwBlock : ∀ (l : List RawValue), sizeOf l ≤ n →
        ∀ x ∈ l, blockNF x = true → normalized_block x = .ok x := by
      intro l hl x hx
      have := List.sizeOf_lt_of_mem hx
      exact (ih x (by omega)).2.2.2
    have hm : methodNF e = true → methodNormalized e = .ok e := by
      intro hnf
      cases e with
      | pyStr s => simp [methodNF] at hnf
      | pyList items => simp [methodNF] at hnf
      | pyDict items => simp [methodNF] at hnf
      | unrecognized t => simp [methodNF] at hnf
      | Text s => simp [methodNormalized, pure, Except.pure]
      | InlineSequence items =>
        simp only [methodNF] at hnf
        have hs : sizeOf items ≤ n := by simp_arith at he; omega
        simp only [methodNormalized]
        rw [normInlineList_stable items
          (fun x hx => pwInline items hs x hx (nfList_forall items hnf x hx))]
        rfl
      | Attachment io bn t =>
        simp only [methodNF] at hnf
        have hs : sizeOf t ≤ n := by simp_arith at he; omega
        simp only [methodNormalized]
        rw [(ih t hs).2.2.1 hnf]
        rfl
      | Section t b =>
        simp only [methodNF, Bool.and_eq_true] at hnf
        have hst : sizeOf t ≤ n := by simp_arith at he; omega
        have hsb : sizeOf b ≤ n := by simp_arith at he; omega
        simp only [methodNormalized]
        rw [(ih t hst).2.2.1 hnf.1,
          (ih b hsb).2.2.2 (by rw [blockNF]; simp [hnf.2.1, hnf.2.2])]
        rfl
      | Sequence items =>
        simp only [methodNF] at hnf
        have hs : sizeOf items ≤ n := by simp_arith at he; omega
        simp only [methodNormalized]
        rw [normBlockList_stable items (fun x hx => pwBlock items hs x hx
          (by rw [blockNF]; exact blockNFList_forall items hnf x hx))]
        rfl
      | Paragraph t =>
        simp only [methodNF] at hnf
        have hs : sizeOf t ≤ n := by simp_arith at he; omega
        simp only [methodNormalized]
        rw [(ih t hs).2.2.1 hnf]
        rfl
      | Table hd bd =>
        simp only [methodNF, Bool.and_eq_true] at hnf
        have hsh : sizeOf hd ≤ n := by simp_arith at he; omega
        have hsb : sizeOf bd ≤ n := by simp_arith at he; omega
        simp only [methodNormalized]
        rw [(ih hd hsh).2.1 hnf.1, (ih bd hsb).2.1 hnf.2]
        rfl
      | ElementaryTable rows =>
        simp only [methodNF] at hnf
        have hs : sizeOf rows ≤ n := by simp_arith at he; omega
        have pw : ∀ row ∈ rows, ∀ x ∈ row, normalized_inline x = .ok x := by
          intro row hrow x hx
          have h1 := List.sizeOf_lt_of_mem hrow
          have h2 := List.sizeOf_lt_of_mem hx
          exact (ih x (by omega)).2.2.1
            (nfList_forall row (nfRows_forall rows hnf row hrow) x hx)
        simp only [methodNormalized]
        rw [normRows_stable rows pw]
        rfl
      | UnorderedList items =>
        simp only [methodNF] at hnf
        have hs : sizeOf items ≤ n := by simp_arith at he; omega
        simp only [methodNormalized]
        rw [normBlockList_stable items (fun x hx => pwBlock items hs x hx
          (by rw [blockNF]; exact blockNFList_forall items hnf x hx))]
        rfl
      | DefinitionList items =>
        simp only [methodNF, Bool.and_eq_true] at hnf
        have hs : sizeOf items ≤ n := by simp_arith at he; omega
        have pw : ∀ p ∈ items, normalized_inline p.1 = .ok p.1
            ∧ normalized_block p.2 = .ok p.2 ∧ hashable p.1 = true := by
          intro p hp
          have h1 := List.sizeOf_lt_of_mem hp
          have hf := nfPairs_forall items hnf.1 p hp
          obtain ⟨k, v⟩ := p
          have h2 : sizeOf (k, v) = 1 + sizeOf k + sizeOf v := rfl
          exact ⟨(ih k (by omega)).2.2.1 hf.1,
            (ih v (by omega)).2.2.2 (by rw [blockNF]; exact hf.2.2), hf.2.1⟩
        simp only [methodNormalized]
        rw [normDictItems_stable items pw hnf.2 [] (by intro p hp; simp [hasKey])]
        rfl
      | Image io fmt cap =>
        simp only [methodNF] at hnf
        have hs : sizeOf cap ≤ n := by simp_arith at he; omega
        simp only [methodNormalized]
        rw [(ih cap hs).2.2.1 hnf]
        rfl
      | TableCellSpan k => simp [methodNormalized, pure, Except.pure]
    refine ⟨hm, ?_, ?_, ?_⟩
    · intro hnf
      rw [tableSide_eq_method e (methodNF_not_pyList e hnf)]
      exact hm hnf
    · intro hnf
      rw [normalized_inline_eq_method e (methodNF_not_pyStr e hnf) (methodNF_not_pyList e hnf)]
      exact hm hnf
    · intro hnf
      rw [blockNF, Bool.and_eq_true, Bool.not_eq_true'] at hnf
      rw [normalized_block_eq_method e (methodNF_not_sugar e hnf.2) hnf.1]
      exact hm hnf.2

theorem noSugarList_of (l : List RawValue) (h : ∀ x ∈ l, noSugar x = true) :
    noSugarList l = true := by
  induction l with
  | nil => simp [noSugarList]
  | cons x rest ih =>
    simp only [noSugarList, Bool.and_eq_true]
    exact ⟨h x (by simp), ih (fun z hz => h z (by simp [hz]))⟩

theorem noSugarRows_of (l : List (List RawValue)) (h : ∀ row ∈ l, noSugarList row = true) :
    noSugarRows l = true := by
  induction l with
  | nil => simp [noSugarRows]
  | cons row rest ih =>
    simp only [noSugarRows, Bool.and_eq_true]
    exact ⟨h row (by simp), ih (fun z hz => h z (by simp [hz]))⟩

theorem noSugarPairs_of (l : List (RawValue × RawValue))
    (h : ∀ p ∈ l, noSugar p.1 = true ∧ noSugar p.2 = true) : noSugarPairs l = true := by
  induction l with
  | nil => simp [noSugarPairs]
  | cons p rest ih =>
    obtain ⟨k, v⟩ := p
    simp only [noSugarPairs, Bool.and_eq_true]
    exact ⟨⟨(h (k, v) (by simp)).1, (h (k, v) (by simp)).2⟩,
      ih (fun z hz => h z (by simp [hz]))⟩

theorem noSugar_of_methodNF : ∀ (n : Nat) (e : RawValue), sizeOf e ≤ n →
    methodNF e = true → noSugar e = true := by
  intro n
  induction n with
  | zero =>
    intro e he
    exfalso
    cases e <;> simp_arith at he
  | succ n ih =>
    intro e he hnf
    cases e with
    | pyStr s => simp [methodNF] at hnf
    | pyList items => simp [methodNF] at hnf
    | pyDict items => simp [methodNF] at hnf
    | unrecognized t => simp [methodNF] at hnf
    | Text s => simp [noSugar]
    | TableCellSpan k => simp [noSugar]
    | InlineSequence items =>
      simp only [methodNF] at hnf
      simp only [noSugar]
      refine noSugarList_of items (fun x hx => ?_)
      have h1 := List.sizeOf_lt_of_mem hx
      have hs : sizeOf items ≤ n := by simp_arith at he; omega
      exact ih x (by omega) (nfList_forall items hnf x hx)
    | Attachment io bn t =>
      simp only [methodNF] at hnf
      simp only [noSugar]
      exact ih t (by simp_arith at he; omega) hnf
    | Section t b =>
      simp only [methodNF, Bool.and_eq_true] at hnf
      simp only [noSugar, Bool.and_eq_true]
      exact ⟨ih t (by simp_arith at he; omega) hnf.1,
        ih b (by simp_arith at he; omega) hnf.2.2⟩
    | Sequence items =>
      simp only [methodNF] at hnf
      simp only [noSugar]
      refine noSugarList_of items (fun x hx => ?_)
      have h1 := List.sizeOf_lt_of_mem hx
      have hs : sizeOf items ≤ n := by simp_arith at he; omega
      have h2 := blockNFList_forall items hnf x hx
      rw [Bool.and_eq_true] at h2
      exact ih x (by omega) h2.2
    | Paragraph t =>
      simp only [methodNF] at hnf
      simp only [noSugar]
      exact ih t (by simp_arith at he; omega) hnf
    | Table hd bd =>
      simp only [methodNF, Bool.and_eq_true] at hnf
      simp only [noSugar, Bool.and_eq_true]
      exact ⟨ih hd (by simp_arith at he; omega) hnf.1,
        ih bd (by simp_arith at he; omega) hnf.2⟩
    | ElementaryTable rows =>
      simp only [methodNF] at hnf
      simp only [noSugar]
      refine noSugarRows_of rows (fun row hrow => ?_)
      have h1 := List.sizeOf_lt_of_mem hrow
      have hs : sizeOf rows ≤ n := by simp_arith at he; omega
      refine noSugarList_of row (fun x hx => ?_)
      have h2 := List.sizeOf_lt_of_mem hx
      exact ih x (by omega) (nfList_forall row (nfRows_forall rows hnf row hrow) x hx)
    | UnorderedList items =>
      simp only [methodNF] at hnf
      simp only [noSugar]
      refine noSugarList_of items (fun x hx => ?_)
      have h1 := List.sizeOf_lt_of_mem hx
      have hs : sizeOf items ≤ n := by simp_arith at he; omega
      have h2 := blockNFList_forall items hnf x hx
      rw [Bool.and_eq_true] at h2
      exact ih x (by omega) h2.2
    | DefinitionList items =>
      simp only [methodNF, Bool.and_eq_true] at hnf
      simp only [noSugar]
      refine noSugarPairs_of items (fun p hp => ?_)
      have h1 := List.sizeOf_lt_of_mem hp
      have hf := nfPairs_forall items hnf.1 p hp
      obtain ⟨k, v⟩ := p
      have h2 : sizeOf (k, v) = 1 + sizeOf k + sizeOf v := rfl
      have hs : sizeOf items ≤ n := by simp_arith at he; omega
      have h3 := hf.2.2
      rw [Bool.and_eq_true] at h3
      exact ⟨ih k (by omega) hf.1, ih v (by omega) h3.2⟩
    | Image io fmt cap =>
      simp only [methodNF] at hnf
      simp only [noSugar]
      exact ih cap (by simp_arith at he; omega) hnf

theorem norm_block_sound (e c : RawValue) (h : normalized_block e = .ok c) :
    blockNF c = true :=
  (norm_sound_all (sizeOf e) e (le_refl _)).2.2.2 c h

theorem norm_inline_sound (e c : RawValue) (h : normalized_inline e = .ok c) :
    methodNF c = true :=
  (norm_sound_all (sizeOf e) e (le_refl _)).2.2.1 c h

theorem norm_block_stable (c : RawValue) (h : blockNF c = true) :
    normalized_block c = .ok c :=
  (norm_stable_all (sizeOf c) c (le_refl _)).2.2.2 h

theorem norm_inline_stable (c : RawValue) (h : methodNF c = true) :
    normalized_inline c = .ok c :=
  (norm_stable_all (sizeOf c) c (le_refl _)).2.2.1 h

theorem noSugar_of_blockNF (c : RawValue) (h : blockNF c = true) : noSugar c = true := by
  rw [blockNF, Bool.and_eq_true] at h
  exact noSugar_of_methodNF (sizeOf c) c (le_refl _) h.2

mutual

/-- The `plain_string` property of InlineElement: `Text` returns its text,
`InlineSequence` concatenates its items, `Attachment` delegates to its
`text`.  Every other value has no `plain_string` attribute, so the lookup
raises AttributeError. -/
def plain_string : RawValue → Except PyError String
  | .Text s => pure s
  | .InlineSequence items => plainStringList items
  | .Attachment _ _ t => plain_string t
  | _ => throw .attributeError

/-- The join in `InlineSequence.plain_string`. -/
def plainStringList : List RawValue → Except PyError String
  | [] => pure ""
  | x :: rest => do pure ((← plain_string x) ++ (← plainStringList rest))

end

/-- A `datetime.datetime` value: the date and time components the modelled
code reads (`strftime` and `isoformat` format the stored fields). -/
structure PyDateTime : Type where
  year : Nat
  month : Nat
  day : Nat
  hour : Nat
  minute : Nat
  second : Nat
deriving DecidableEq, Repr

/-- Left-pad a decimal rendering with zeros. -/
def natPad (width n : Nat) : String :=
  String.mk (List.replicate (width - (toString n).length) '0') ++ toString n

/-- `creation_date.strftime('%Y-%m-%d')`: the date component only. -/
def strftimeYmd (dt : PyDateTime) : String :=
  natPad 4 dt.year ++ "-" ++ natPad 2 dt.month ++ "-" ++ natPad 2 dt.day

/-- `creation_date.isoformat()`: date and time components. -/
def isoformat (dt : PyDateTime) : String :=
  strftimeYmd dt ++ "T" ++ natPad 2 dt.hour ++ ":" ++ natPad 2 dt.minute ++ ":" ++
    natPad 2 dt.second

/-- The `Document` dataclass of doc_ast.py. -/
structure Document : Type where
  language_code : String
  title : RawValue
  subject : RawValue
  author : RawValue
  creator : RawValue
  creation_date : PyDateTime
  creation_place : RawValue
  body : RawValue
deriving DecidableEq

/-- The derived property `Document.creation_place_and_date`:
`f'{self.creation_place.plain_string}, {date_str}'` with
`date_str = self.creation_date.strftime('%Y-%m-%d')`. -/
def Document.creation_place_and_date (d : Document) : Except PyError String := do
  let ps ← plain_string d.creation_place
  pure (ps ++ ", " ++ strftimeYmd d.creation_date)

/-- `Document.normalized`: normalize every inline metadata field and the
body, copying `language_code` and `creation_date` unchanged. -/
def Document.normalized (d : Document) : Except PyError Document := do
  let title ← normalized_inline d.title
  let subject ← normalized_inline d.subject
  let author ← normalized_inline d.author
  let creator ← normalized_inline d.creator
  let creation_place ← normalized_inline d.creation_place
  let body ← normalized_block d.body
  pure ⟨d.language_code, title, subject, author, creator, d.creation_date,
    creation_place, body⟩

/-- ElementaryTable.get_cell: `None` (here `none`) for any out-of-bounds
index, otherwise the cell.  `rows` is the `rows: List[List[TableCell]]`
field of the table. -/
def get_cell (rows : List (List RawValue)) (row_index column_index : Int) :
    Option RawValue :=
  if row_index < 0 ∨ (rows.length : Int) ≤ row_index then none
  else if column_index < 0 ∨ ((((rows[row_index.toNat]?).getD []).length : Int) ≤ column_index)
    then none
  else ((rows[row_index.toNat]?).getD [])[column_index.toNat]?

theorem get_cell_some (rows : List (List RawValue)) (ri ci : Int) (c : RawValue)
    (h : get_cell rows ri ci = some c) :
    0 ≤ ri ∧ ri < (rows.length : Int) ∧ 0 ≤ ci ∧
      ci < (((rows[ri.toNat]?).getD []).length : Int) := by
  rw [get_cell] at h
  split at h
  · exact absurd h (by simp)
  · split at h
    · exact absurd h (by simp)
    · omega

theorem get_cell_in_bounds (rows : List (List RawValue)) (ri ci : Int)
    (h1 : 0 ≤ ri) (h2 : ri < (rows.length : Int)) (h3 : 0 ≤ ci)
    (h4 : ci < (((rows[ri.toNat]?).getD []).length : Int)) :
    get_cell rows ri ci = ((rows[ri.toNat]?).getD [])[ci.toNat]? := by
  rw [get_cell]
  rw [if_neg (by omega)]
  rw [if_neg (by omega)]

/-- The `while True` loop of ElementaryTable.get_column_span, with the
running `span` counter as a parameter; it terminates because the probed
column index grows past the end of the row, where get_cell answers the
absent sentinel. -/
def column_span_loop (rows : List (List RawValue)) (ri ci : Int) (span : Nat) : Nat :=
  if h : get_cell rows ri (ci + span) = some (.TableCellSpan .column) then
    column_span_loop rows ri ci (span + 1)
  else span
termination_by ((((rows[ri.toNat]?).getD []).length : Int) - ci - span).toNat
decreasing_by
  have := get_cell_some rows ri (ci + span) _ h
  omega

/-- ElementaryTable.get_column_span. -/
def get_column_span (rows : List (List RawValue)) (ri ci : Int) : Nat :=
  column_span_loop rows ri ci 1

/-- The `while True` loop of ElementaryTable.get_row_span; it terminates
because the probed row index grows past the last row. -/
def row_span_loop (rows : List (List RawValue)) (ri ci : Int) (span : Nat) : Nat :=
  if h : get_cell rows (ri + span) ci = some (.TableCellSpan .row) then
    row_span_loop rows ri ci (span + 1)
  else span
termination_by ((rows.length : Int) - ri - span).toNat
decreasing_by
  have := get_cell_some rows (ri + span) ci _ h
  omega

/-- ElementaryTable.get_row_span. -/
def get_row_span (rows : List (List RawValue)) (ri ci : Int) : Nat :=
  row_span_loop rows ri ci 1

/-- The column-span loop with an explicit iteration budget: `none` means the
budget ran out before the loop exited. -/
def column_span_loop_fuel : Nat → List (List RawValue) → Int → Int → Nat → Option Nat
  | 0, _, _, _, _ => none
  | fuel + 1, rows, ri, ci, span =>
    if get_cell rows ri (ci + span) = some (.TableCellSpan .column) then
      column_span_loop_fuel fuel rows ri ci (span + 1)
    else some span

/-- The row-span loop with an explicit iteration budget. -/
def row_span_loop_fuel : Nat → List (List RawValue) → Int → Int → Nat → Option Nat
  | 0, _, _, _, _ => none
  | fuel + 1, rows, ri, ci, span =>
    if get_cell rows (ri + span) ci = some (.TableCellSpan .row) then
      row_span_loop_fuel fuel rows ri ci (span + 1)
    else some span

/-- Modelled from the spec: the number of consecutive `ColumnSpanMarker`
cells of row `ri` at column positions `k`, `k+1`, ... -/
def specColFrom (rows : List (List RawValue)) (ri k : Int) : Nat :=
  if ri < 0 ∨ k < 0 then 0
  else ((((rows[ri.toNat]?).getD []).drop k.toNat).takeWhile
    (fun c => decide (c = RawValue.TableCellSpan .column))).length

/-- Modelled from the spec: the number of consecutive `RowSpanMarker` cells
of column `ci` at row positions `k`, `k+1`, ... (scanning downward). -/
def specRowFrom (rows : List (List RawValue)) (ci k : Int) : Nat :=
  if k < 0 ∨ ci < 0 then 0
  else ((rows.drop k.toNat).takeWhile
    (fun row => decide (row[ci.toNat]? = some (RawValue.TableCellSpan .row)))).length

/-- Modelled from the spec: `column_span(r,c)` = count of consecutive
`ColumnSpanMarker` cells immediately following `(r,c)` in row `r`, plus 1. -/
def spec_column_span (rows : List (List RawValue)) (ri ci : Int) : Nat :=
  1 + specColFrom rows ri (ci + 1)

/-- Modelled from the spec: `row_span(r,c)` = count of consecutive
`RowSpanMarker` cells immediately following `(r,c)` in column `c` (scanning
downward row by row), plus 1. -/
def spec_row_span (rows : List (List RawValue)) (ri ci : Int) : Nat :=
  1 + specRowFrom rows ci (ri + 1)

theorem specColFrom_marker (rows : List (List RawValue)) (ri k : Int)
    (h : get_cell rows ri k = some (.TableCellSpan .column)) :
    specColFrom rows ri k = 1 + specColFrom rows ri (k + 1) := by
  have hb := get_cell_some rows ri k _ h
  rw [get_cell_in_bounds rows ri k hb.1 hb.2.1 hb.2.2.1 hb.2.2.2] at h
  have hlt : k.toNat < ((rows[ri.toNat]?).getD []).length := by omega
  rw [List.getElem?_eq_getElem hlt, Option.some_inj] at h
  rw [specColFrom, if_neg (by omega), specColFrom, if_neg (by omega)]
  rw [List.drop_eq_getElem_cons hlt, List.takeWhile_cons, h]
  have h2 : (k + 1).toNat = k.toNat + 1 := by omega
  rw [h2]
  simp only [decide_True, if_true, List.length_cons]
  omega

theorem specColFrom_zero (rows : List (List RawValue)) (ri k : Int)
    (h : ¬ get_cell rows ri k = some (.TableCellSpan .column)) :
    specColFrom rows ri k = 0 := by
  rw [specColFrom]
  split
  · rfl
  · rename_i hguard
    push_neg at hguard
    by_cases hri : ri < (rows.length : Int)
    · by_cases hlen : k.toNat < ((rows[ri.toNat]?).getD []).length
      · have hget : get_cell rows ri k = some ((rows[ri.toNat]?).getD [])[k.toNat] := by
          rw [get_cell_in_bounds rows ri k (by omega) hri (by omega) (by omega)]
          exact List.getElem?_eq_getElem hlen
        have hne : ((rows[ri.toNat]?).getD [])[k.toNat] ≠ RawValue.TableCellSpan .column := by
          intro hh
          rw [hh] at hget
          exact h hget
        rw [List.drop_eq_getElem_cons hlen, List.takeWhile_cons]
        simp [hne]
      · rw [List.drop_eq_nil_of_le (by omega)]
        rfl
    · have hnone : rows[ri.toNat]? = none := List.getElem?_eq_none (by omega)
      rw [hnone]
      simp

theorem specRowFrom_marker (rows : List (List RawValue)) (ci k : Int)
    (h : get_cell rows k ci = some (.TableCellSpan .row)) :
    specRowFrom rows ci k = 1 + specRowFrom rows ci (k + 1) := by
  have hb := get_cell_some rows k ci _ h
  rw [get_cell_in_bounds rows k ci hb.1 hb.2.1 hb.2.2.1 hb.2.2.2] at h
  have hlt : k.toNat < rows.length := by omega
  rw [specRowFrom, if_neg (by omega), specRowFrom, if_neg (by omega)]
  rw [List.drop_eq_getElem_cons hlt, List.takeWhile_cons]
  rw [List.getElem?_eq_getElem hlt] at h
  simp only [Option.getD_some] at h
  rw [h]
  have h2 : (k + 1).toNat = k.toNat + 1 := by omega
  rw [h2]
  simp only [decide_True, if_true, List.length_cons]
  omega

theorem specRowFrom_zero (rows : List (List RawValue)) (ci k : Int)
    (h : ¬ get_cell rows k ci = some (.TableCellSpan .row)) :
    specRowFrom rows ci k = 0 := by
  rw [specRowFrom]
  split
  · rfl
  · rename_i hguard
    push_neg at hguard
    by_cases hlt : k.toNat < rows.length
    · rw [List.drop_eq_getElem_cons hlt, List.takeWhile_cons]
      have hne : ¬ (rows[k.toNat][ci.toNat]? = some (RawValue.TableCellSpan .row)) := by
        intro hh
        have hce : ci.toNat < rows[k.toNat].length := by
          rcases Nat.lt_or_ge ci.toNat rows[k.toNat].length with h2 | h2
          · exact h2
          · rw [List.getElem?_eq_none h2] at hh
            cases hh
        apply h
        rw [get_cell_in_bounds rows k ci (by omega) (by omega) (by omega)
          (by rw [List.getElem?_eq_getElem hlt]; simp only [Option.getD_some]; omega)]
        rw [List.getElem?_eq_getElem hlt]
        simp only [Option.getD_some]
        exact hh
      simp [hne]
    · rw [List.drop_eq_nil_of_le (by omega)]
      rfl

theorem column_span_loop_eq (rows : List (List RawValue)) (ri ci : Int) :
    ∀ span, column_span_loop rows ri ci span = span + specColFrom rows ri (ci + span) := by
  intro span
  induction span using column_span_loop.induct rows ri ci with
  | case1 x hx ih =>
    rw [column_span_loop, dif_pos hx, ih]
    rw [specColFrom_marker rows ri (ci + x) hx]
    have hcast : ci + ((x + 1 : Nat) : Int) = ci + x + 1 := by push_cast; ring
    rw [hcast]
    omega
  | case2 x hx =>
    rw [column_span_loop, dif_neg hx, specColFrom_zero rows ri (ci + x) hx]
    omega

theorem row_span_loop_eq (rows : List (List RawValue)) (ri ci : Int) :
    ∀ span, row_span_loop rows ri ci span = span + specRowFrom rows ci (ri + span) := by
  intro span
  induction span using row_span_loop.induct rows ri ci with
  | case1 x hx ih =>
    rw [row_span_loop, dif_pos hx, ih]
    rw [specRowFrom_marker rows ci (ri + x) hx]
    have hcast : ri + ((x + 1 : Nat) : Int) = ri + x + 1 := by push_cast; ring
    rw [hcast]
    omega
  | case2 x hx =>
    rw [row_span_loop, dif_neg hx, specRowFrom_zero rows ci (ri + x) hx]
    omega

theorem get_column_span_eq_spec (rows : List (List RawValue)) (ri ci : Int) :
    get_column_span rows ri ci = spec_column_span rows ri ci := by
  rw [get_column_span, column_span_loop_eq, spec_column_span]
  have hcast : ci + ((1 : Nat) : Int) = ci + 1 := by norm_num
  rw [hcast]

theorem get_row_span_eq_spec (rows : List (List RawValue)) (ri ci : Int) :
    get_row_span rows ri ci = spec_row_span rows ri ci := by
  rw [get_row_span, row_span_loop_eq, spec_row_span]
  have hcast : ri + ((1 : Nat) : Int) = ri + 1 := by norm_num
  rw [hcast]

theorem column_span_loop_fuel_eq (rows : List (List RawValue)) (ri ci : Int) :
    ∀ (span : Nat), column_span_loop_fuel (specColFrom rows ri (ci + span) + 1) rows ri ci span =
      some (column_span_loop rows ri ci span) := by
  intro span
  induction span using column_span_loop.induct rows ri ci with
  | case1 x hx ih =>
    rw [specColFrom_marker rows ri (ci + x) hx]
    rw [show 1 + specColFrom rows ri (ci + ↑x + 1) + 1 =
      (specColFrom rows ri (ci + ↑x + 1) + 1) + 1 by omega]
    rw [column_span_loop_fuel, if_pos hx]
    rw [column_span_loop, dif_pos hx]
    have hcast : ci + ((x + 1 : Nat) : Int) = ci + x + 1 := by push_cast; ring
    rw [hcast] at ih
    exact ih
  | case2 x hx =>
    rw [specColFrom_zero rows ri (ci + x) hx]
    rw [show (0 : Nat) + 1 = 1 by rfl]
    rw [column_span_loop_fuel, if_neg hx]
    rw [column_span_loop, dif_neg hx]

theorem row_span_loop_fuel_eq (rows : List (List RawValue)) (ri ci : Int) :
    ∀ (span : Nat), row_span_loop_fuel (specRowFrom rows ci (ri + span) + 1) rows ri ci span =
      some (row_span_loop rows ri ci span) := by
  intro span
  induction span using row_span_loop.induct rows ri ci with
  | case1 x hx ih =>
    rw [specRowFrom_marker rows ci (ri + x) hx]
    rw [show 1 + specRowFrom rows ci (ri + ↑x + 1) + 1 =
      (specRowFrom rows ci (ri + ↑x + 1) + 1) + 1 by omega]
    rw [row_span_loop_fuel, if_pos hx]
    rw [row_span_loop, dif_pos hx]
    have hcast : ri + ((x + 1 : Nat) : Int) = ri + x + 1 := by push_cast; ring
    rw [hcast] at ih
    exact ih
  | case2 x hx =>
    rw [specRowFrom_zero rows ci (ri + x) hx]
    rw [show (0 : Nat) + 1 = 1 by rfl]
    rw [row_span_loop_fuel, if_neg hx]
    rw [row_span_loop, dif_neg hx]

/-- A node of the element tree built by the hypertext renderer through
`ET.SubElement`: tag, attributes in order of assignment, optional text, and
children in insertion order.  Serializing this tree is deterministic, so two
renders are byte-identical exactly when their trees are equal. -/
inductive HNode : Type
  | el (tag : String) (attrs : List (String × String)) (txt : Option String)
       (children : List HNode)

mutual

def beqHNode : HNode → HNode → Bool
  | .el t1 a1 x1 c1, .el t2 a2 x2 c2 => t1 == t2 && a1 == a2 && x1 == x2 && beqHNodeList c1 c2

def beqHNodeList : List HNode → List HNode → Bool
  | [], [] => true
  | x :: xs, y :: ys => beqHNode x y && beqHNodeList xs ys
  | _, _ => false

end

theorem beqHNodeList_iff (xs : List HNode)
    (ih : ∀ x ∈ xs, ∀ y, beqHNode x y = true ↔ x = y) :
    ∀ ys, beqHNodeList xs ys = true ↔ xs = ys := by
  induction xs with
  | nil => intro ys; cases ys <;> simp [beqHNodeList]
  | cons x xs tail_ih =>
    intro ys
    cases ys with
    | nil => simp [beqHNodeList]
    | cons y ys =>
      simp only [beqHNodeList, Bool.and_eq_true, List.cons.injEq]
      rw [ih x (by simp), tail_ih (fun z hz => ih z (by simp [hz])) ys]

theorem beqHNode_iff : ∀ (a b : HNode), beqHNode a b = true ↔ a = b := by
  have main : ∀ (n : Nat) (a : HNode), sizeOf a ≤ n → ∀ b, beqHNode a b = true ↔ a = b := by
    intro n
    induction n with
    | zero =>
      intro a ha
      exfalso
      cases a
      simp_arith at ha
    | succ n ih =>
      intro a ha b
      obtain ⟨t1, a1, x1, c1⟩ := a
      obtain ⟨t2, a2, x2, c2⟩ := b
      simp only [beqHNode, Bool.and_eq_true, beq_iff_eq, HNode.el.injEq]
      rw [beqHNodeList_iff c1 (fun x hx y => by
        have h1 := List.sizeOf_lt_of_mem hx
        have h2 : sizeOf (HNode.el t1 a1 x1 c1) = 1 + sizeOf t1 + sizeOf a1 + sizeOf x1 + sizeOf c1 := by
          simp
        exact ih x (by omega) y) c2]
      tauto
  intro a b
  exact main (sizeOf a) a (le_refl _) b

instance : DecidableEq HNode := fun a b =>
  decidable_of_iff (beqHNode a b = true) (beqHNode_iff a b)

/-- Opaque stand-in for `b64encode(stream.read()).decode()`: the base64 text
of the bytes behind the stream token. -/
def stream_b64 (token : Nat) : String := "b64bytes" ++ toString token

/-- The content-type table of HTMLRenderer.add_image; an unknown format key
raises KeyError. -/
def html_content_type : String → Except PyError String
  | "png" => pure "image/png"
  | "jpg" => pure "image/jpeg"
  | "jpeg" => pure "image/jpeg"
  | "gif" => pure "image/gif"
  | _ => throw .keyError

mutual

/-- HTMLRenderer.add_inline_element: Text becomes a span, InlineSequence
splices its items, Attachment becomes a download link wrapping its text;
any other value (including the `Strong` class of the newer ast module,
absent from doc_ast.py) raises ValueError. -/
def html_add_inline_element : RawValue → Except PyError (List HNode)
  | .Text s => pure [.el "span" [] (some s) []]
  | .InlineSequence items => html_inline_items items
  | .Attachment io bn t => do
      pure [.el "a" [("download", bn), ("target", "_blank"),
        ("rel", "noopener noreferrer"), ("type", "application/octet-stream"),
        ("href", "data:application/octet-stream;base64," ++ stream_b64 io)] none
        (← html_add_inline_element t)]
  | _ => throw .valueError

def html_inline_items : List RawValue → Except PyError (List HNode)
  | [] => pure []
  | x :: rest => do pure ((← html_add_inline_element x) ++ (← html_inline_items rest))

/-- HTMLRenderer.add_element: dispatch over the block variants, in the
source's isinstance order; an unknown type raises ValueError.  The returned
nodes are the children the call appends to its parent element. -/
def html_add_element : RawValue → Option Nat → Except PyError (List HNode)
  | .Section t b, heading_level =>
      match heading_level with
      | none => throw .typeError
      | some lvl =>
        if lvl < 2 then throw .assertionError
        else do
          let hd ← html_add_inline_element t
          let bodyEls ← html_add_element b (some (lvl + 1))
          let children := HNode.el ("h" ++ toString lvl) [] none hd :: bodyEls
          pure (if lvl = 2 then [.el "section" [] none children] else children)
  | .Paragraph t, _ => do pure [.el "p" [] none (← html_add_inline_element t)]
  | .Table h b, _ =>
      match h, b with
      | .ElementaryTable hrows, .ElementaryTable brows => do
          let thead ← html_elementary_table hrows hrows 0 "th"
          let tbody ← html_elementary_table brows brows 0 "td"
          pure [.el "table" [] none
            [.el "thead" [] none thead, .el "tbody" [] none tbody]]
      | _, _ => throw .attributeError
  | .UnorderedList items, _ => do pure [.el "ul" [] none (← html_li_items items)]
  | .DefinitionList items, _ => do pure [.el "dl" [] none (← html_dl_items items)]
  | .Sequence items, heading_level => html_seq_items items heading_level
  | .Image io fmt cap, _ => do
      let ct ← html_content_type fmt
      let alt ← plain_string cap
      pure [.el "figure" [] none
        [.el "img" [("src", "data:" ++ ct ++ ";base64," ++ stream_b64 io),
          ("alt", alt)] none []]]
  | _, _ => throw .valueError

def html_seq_items : List RawValue → Option Nat → Except PyError (List HNode)
  | [], _ => pure []
  | x :: rest, lvl => do pure ((← html_add_element x lvl) ++ (← html_seq_items rest lvl))

def html_li_items : List RawValue → Except PyError (List HNode)
  | [] => pure []
  | x :: rest => do
      pure (HNode.el "li" [] none (← html_add_element x none) :: (← html_li_items rest))

def html_dl_items : List (RawValue × RawValue) → Except PyError (List HNode)
  | [] => pure []
  | (t, d) :: rest => do
      let dt := HNode.el "dt" [] none (← html_add_inline_element t)
      let dd := HNode.el "dd" [] none (← html_add_element d none)
      pure (dt :: dd :: (← html_dl_items rest))

/-- HTMLRenderer.add_elementary_table, iterating the remaining rows while
keeping the full table for span arithmetic. -/
def html_elementary_table : List (List RawValue) → List (List RawValue) → Nat → String →
    Except PyError (List HNode)
  | [], _, _, _ => pure []
  | row :: rest, all, ri, cellTag => do
      let cells ← html_row_cells row all ri 0 cellTag
      pure (HNode.el "tr" [] none cells :: (← html_elementary_table rest all (ri + 1) cellTag))

/-- One table row: a span-marker cell is skipped (`continue`); any other
cell becomes a td/th whose colspan/rowspan attributes are set only when the
computed span exceeds 1. -/
def html_row_cells : List RawValue → List (List RawValue) → Nat → Nat → String →
    Except PyError (List HNode)
  | [], _, _, _, _ => pure []
  | .TableCellSpan _ :: rest, all, ri, ci, cellTag => html_row_cells rest all ri (ci + 1) cellTag
  | c :: rest, all, ri, ci, cellTag => do
      let cspan := get_column_span all ri ci
      let rspan := get_row_span all ri ci
      let attrs := (if 1 < cspan then [("colspan", toString cspan)] else [])
        ++ (if 1 < rspan then [("rowspan", toString rspan)] else [])
      pure (HNode.el cellTag attrs none (← html_add_inline_element c)
        :: (← html_row_cells rest all ri (ci + 1) cellTag))

end

/-- HTMLRenderer.add_head: document metadata only; the `created` meta uses
the document's own creation_date. -/
def html_head (d : Document) : Except PyError HNode := do
  let titleS ← plain_string d.title
  let subjS ← plain_string d.subject
  let authS ← plain_string d.author
  let creatS ← plain_string d.creator
  pure (.el "head" [] none [
    .el "meta" [("charset", "utf-8")] none [],
    .el "title" [] (some titleS) [],
    .el "meta" [("name", "description"), ("content", subjS)] none [],
    .el "meta" [("name", "author"), ("content", authS)] none [],
    .el "meta" [("name", "generator"), ("content", creatS)] none [],
    .el "meta" [("name", "created"), ("content", isoformat d.creation_date)] none [],
    .el "meta" [("name", "viewport"), ("content", "width=device-width, initial-scale=1")] none [],
    .el "link" [("rel", "stylesheet"),
      ("href", "https://edwardtufte.github.io/tufte-css/tufte.css")] none []])

/-- HTMLRenderer.add_cover. -/
def html_cover (d : Document) : Except PyError (List HNode) := do
  let h1 ← html_add_inline_element d.title
  let subj ← html_add_inline_element d.subject
  let auth ← html_add_inline_element d.author
  let cpd ← d.creation_place_and_date
  pure [.el "h1" [] none h1,
    .el "p" [("class_", "subtitle")] none
      (subj ++ [.el "br" [] none []] ++ auth ++
        [.el "br" [] none [], .el "span" [] (some cpd) []])]

/-- The whole element tree HTMLRenderer builds for a document.  `now` is the
ambient wall-clock instant at render time; no code path of the renderer
reads it. -/
def html_render_document (d : Document) (now : PyDateTime) : Except PyError HNode := do
  let hd ← html_head d
  let cover ← html_cover d
  let bodyEls ← html_add_element d.body (some 2)
  pure (.el "html" [("lang", d.language_code)] none
    [hd, .el "body" [] none [.el "article" [] none (cover ++ bodyEls)]])

/-- An output primitive of the page-layout renderer (FPDFRenderer): each
constructor stands for one call into the fpdf library, which serializes the
call sequence deterministically.  Leaf formatting (fonts, margins, exact
coordinates) is the library's concern and is not modelled. -/
inductive PdfOp : Type
  | setMeta (lang title subject author creator : String) (creationDate : PyDateTime)
  | writeText (s : String)
  | ln
  | sectionHeading (title : String) (level : Nat)
  | bullet
  | tableStart (numHeadingRows : Nat)
  | tableRow
  | tableCell (content : String) (colspan rowspan : Nat)
  | tableEnd
  | fileAttachment (content_io : Nat) (basename : String)
  | image (image_io : Nat)
  | coverText (s : String)
deriving DecidableEq

mutual

/-- FPDFRenderer.add_inline_element: returns the emitted operations and the
boolean the source returns (whether anything was generated). -/
def pdf_add_inline : RawValue → Except PyError (List PdfOp × Bool)
  | .Text s => pure ([.writeText s], !(s == ""))
  | .InlineSequence items => pdf_inline_items items
  | .Attachment io bn t => do
      let r ← pdf_add_inline t
      pure (r.1 ++ [.fileAttachment io bn], true)
  | _ => throw .valueError

def pdf_inline_items : List RawValue → Except PyError (List PdfOp × Bool)
  | [] => pure ([], false)
  | x :: rest => do
      let r1 ← pdf_add_inline x
      let r2 ← pdf_inline_items rest
      pure (r1.1 ++ r2.1, r1.2 || r2.2)

/-- FPDFRenderer.add_element: dispatch over the block variants in the
source's isinstance order, returning the emitted operations and the
"anything was generated" boolean. -/
def pdf_add_element : RawValue → Option Nat → Except PyError (List PdfOp × Bool)
  | .Section t b, level =>
      match level with
      | none => throw .keyError
      | some lvl =>
        if 2 < lvl then throw .keyError
        else do
          let rt ← pdf_add_inline t
          let ts ← plain_string t
          let rb ← pdf_add_element b (some (lvl + 1))
          pure (.sectionHeading ts lvl :: rt.1 ++ [.ln] ++ rb.1, true)
  | .Paragraph t, _ => do
      let r ← pdf_add_inline t
      pure (r.1, true)
  | .Table h b, _ =>
      match h, b with
      | .ElementaryTable hrows, .ElementaryTable brows => do
          let hops ← pdf_elementary_table hrows hrows 0
          let bops ← pdf_elementary_table brows brows 0
          pure (.tableStart hrows.length :: hops ++ bops ++ [.tableEnd], true)
      | _, _ => throw .attributeError
  | .UnorderedList items, _ => do
      let ops ← pdf_list_items items true
      pure (ops, true)
  | .DefinitionList items, _ => do
      let ops ← pdf_def_items items true
      pure (ops, true)
  | .Sequence items, level => pdf_seq_items items level false
  | .Image io fmt cap, _ => pure ([.image io], true)
  | _, _ => throw .valueError

/-- FPDFRenderer.add_sequence: vertical space (`ln`) is inserted before an
item exactly when the previous item generated output; the returned boolean
is whether any item generated output. -/
def pdf_seq_items : List RawValue → Option Nat → Bool → Except PyError (List PdfOp × Bool)
  | [], _, _ => pure ([], false)
  | x :: rest, level, lnRequired => do
      let r1 ← pdf_add_element x level
      let r2 ← pdf_seq_items rest level r1.2
      pure ((if lnRequired then [.ln] else []) ++ r1.1 ++ r2.1, r1.2 || r2.2)

/-- FPDFRenderer.add_unordered_list: a bullet before each item, vertical
space between consecutive items. -/
def pdf_list_items : List RawValue → Bool → Except PyError (List PdfOp)
  | [], _ => pure []
  | x :: rest, isFirst => do
      let r ← pdf_add_element x none
      let restOps ← pdf_list_items rest false
      pure ((if isFirst then [] else [.ln]) ++ [.bullet] ++ r.1 ++ restOps)

/-- FPDFRenderer.add_definition_list renders each (term, definition) pair as
the unordered-list item `Sequence([Paragraph(term), definition])`; the
sequence logic inserts `ln` before the definition because add_paragraph
returns True. -/
def pdf_def_items : List (RawValue × RawValue) → Bool → Except PyError (List PdfOp)
  | [], _ => pure []
  | (t, d) :: rest, isFirst => do
      let rp ← pdf_add_element (.Paragraph t) none
      let rd ← pdf_add_element d none
      let restOps ← pdf_def_items rest false
      pure ((if isFirst then [] else [.ln]) ++ [.bullet] ++ rp.1 ++ [.ln] ++ rd.1 ++ restOps)

/-- FPDFRenderer.add_elementary_table. -/
def pdf_elementary_table : List (List RawValue) → List (List RawValue) → Nat →
    Except PyError (List PdfOp)
  | [], _, _ => pure []
  | row :: rest, all, ri => do
      let cells ← pdf_row_cells row all ri 0
      let restOps ← pdf_elementary_table rest all (ri + 1)
      pure (.tableRow :: cells ++ restOps)

/-- One pdf table row: a span-marker cell emits nothing (`pass`); any other
cell emits one cell op carrying its plain string and both computed spans. -/
def pdf_row_cells : List RawValue → List (List RawValue) → Nat → Nat →
    Except PyError (List PdfOp)
  | [], _, _, _ => pure []
  | .TableCellSpan _ :: rest, all, ri, ci => pdf_row_cells rest all ri (ci + 1)
  | c :: rest, all, ri, ci => do
      let s ← plain_string c
      let restOps ← pdf_row_cells rest all ri (ci + 1)
      pure (.tableCell s (get_column_span all ri ci) (get_row_span all ri ci) :: restOps)

end

/-- The operation sequence FPDFRenderer emits for a document: metadata (with
the document's own creation_date installed by set_creation_date), the cover,
then the body at section level 0.  `now` is the ambient wall-clock instant;
no code path reads it. -/
def pdf_render_document (d : Document) (now : PyDateTime) : Except PyError (List PdfOp) := do
  let titleS ← plain_string d.title
  let subjS ← plain_string d.subject
  let authS ← plain_string d.author
  let creatS ← plain_string d.creator
  let rt ← pdf_add_inline d.title
  let rs ← pdf_add_inline d.subject
  let ra ← pdf_add_inline d.author
  let cpd ← d.creation_place_and_date
  let rb ← pdf_add_element d.body (some 0)
  pure (.setMeta d.language_code titleS subjS authS creatS d.creation_date ::
    rt.1 ++ [.ln] ++ rs.1 ++ [.ln] ++ ra.1 ++ [.ln, .coverText cpd] ++ rb.1)

/-- An output primitive of the word-processor renderer (DOCXRenderer). -/
inductive DocxOp : Type
  | meta (lang title subject author creator : String) (created : PyDateTime)
  | heading (s : String) (level : Nat)
  | para (s : String) (style : String)
  | headerPara (s : String)
  | footerPara (s : String)
  | picture (image_io : Nat)
deriving DecidableEq

/-- The ambient traversal state DOCXRenderer.add_element threads down:
section level, list nesting level, and the first-paragraph-in-list-item
flag. -/
structure DocxCtx : Type where
  sectionLevel : Option Nat
  listLevel : Option Nat
  firstInListItem : Bool
deriving DecidableEq

/-- The style-selection chain of DOCXRenderer.add_paragraph, branch for
branch: `list_level` of None, 1, or above 1, crossed with the first-in-item
flag; the final `first and list_level is None` branch compares None with an
int, a TypeError; list_level 0 falls through to the ValueError. -/
def docx_paragraph_style : Bool → Option Nat → Except PyError String
  | false, none => pure "Body Text"
  | false, some l =>
      if l = 1 then pure "List Continue"
      else if 1 < l then pure ("List Continue " ++ toString l)
      else throw .valueError
  | true, some l =>
      if l = 1 then pure "List Bullet"
      else if 1 < l then pure ("List Bullet " ++ toString l)
      else throw .valueError
  | true, none => throw .typeError

mutual

/-- DOCXRenderer.add_element: dispatch over the block variants.  The Table
branch mirrors add_table's first statement,
`self.docx.add_table(rows=1, cols=len(table_data.headings))`: the Table
dataclass of doc_ast.py has fields `head` and `body` but no `headings`, so
the attribute lookup raises AttributeError before any output is produced. -/
def docx_add_element : RawValue → DocxCtx → Except PyError (List DocxOp)
  | .Section t b, ctx =>
      match ctx.sectionLevel with
      | none => throw .keyError
      | some lvl => do
          let ts ← plain_string t
          let bops ← docx_add_element b ⟨some (lvl + 1), none, false⟩
          pure (.heading ts lvl :: bops)
  | .Paragraph t, ctx => do
      let style ← docx_paragraph_style ctx.firstInListItem ctx.listLevel
      let s ← plain_string t
      pure [.para s style]
  | .Table _ _, _ => throw .attributeError
  | .UnorderedList items, ctx =>
      docx_list_items items ((match ctx.listLevel with | none => 0 | some l => l) + 1)
  | .DefinitionList items, _ => docx_def_items items
  | .Sequence items, ctx => docx_seq_items items ctx
  | .Image io fmt cap, _ => do
      let s ← plain_string cap
      pure [.picture io, .para s "Normal"]
  | _, _ => throw .valueError

/-- DOCXRenderer.add_sequence: the incoming first-in-list-item flag applies
to the first item only. -/
def docx_seq_items : List RawValue → DocxCtx → Except PyError (List DocxOp)
  | [], _ => pure []
  | x :: rest, ctx => do
      pure ((← docx_add_element x ctx)
        ++ (← docx_seq_items rest ⟨ctx.sectionLevel, ctx.listLevel, false⟩))

/-- DOCXRenderer.add_unordered_list: every item starts a list item at the
given nesting level. -/
def docx_list_items : List RawValue → Nat → Except PyError (List DocxOp)
  | [], _ => pure []
  | x :: rest, l => do
      pure ((← docx_add_element x ⟨none, some l, true⟩) ++ (← docx_list_items rest l))

/-- DOCXRenderer.add_definition_list renders each (term, definition) pair as
the level-1 list item `Sequence([Paragraph(term), definition])`. -/
def docx_def_items : List (RawValue × RawValue) → Except PyError (List DocxOp)
  | [] => pure []
  | (t, d) :: rest => do
      let pops ← docx_add_element (.Paragraph t) ⟨none, some 1, true⟩
      let dops ← docx_add_element d ⟨none, some 1, false⟩
      pure (pops ++ dops ++ (← docx_def_items rest))

end

/-- The operation sequence DOCXRenderer emits for a document: core
properties (with the document's own creation_date), the cover, the
header/footer configuration, then the body at section level 1.  `now` is
the ambient wall-clock instant; no code path reads it. -/
def docx_render_document (d : Document) (now : PyDateTime) : Except PyError (List DocxOp) := do
  let titleS ← plain_string d.title
  let subjS ← plain_string d.subject
  let authS ← plain_string d.author
  let creatS ← plain_string d.creator
  let cpd ← d.creation_place_and_date
  let cpd2 ← d.creation_place_and_date
  let bops ← docx_add_element d.body ⟨some 1, none, false⟩
  pure ([.meta d.language_code titleS subjS authS creatS d.creation_date,
    .heading titleS 0, .para subjS "Normal",
    .para ("Autor: " ++ authS ++ "\n" ++ cpd) "Normal",
    .headerPara (titleS ++ "\n" ++ subjS),
    .footerPara (authS ++ "\n" ++ cpd2)] ++ bops)

/-- The bytes DOCXRenderer.render writes: the serialized operations plus the
timestamp stamped on every zip entry.  The source patches the package
writer with `fixed_write`, which builds `ZipInfo(filename=...)` and so
stamps the ZipInfo default date (1980-01-01) instead of the current time —
this is the one place the underlying library would otherwise read the
clock. -/
structure DocxFile : Type where
  ops : List DocxOp
  zipEntryDate : PyDateTime
deriving DecidableEq

def fixedZipDate : PyDateTime := ⟨1980, 1, 1, 0, 0, 0⟩

def docx_render (d : Document) (now : PyDateTime) : Except PyError DocxFile := do
  let ops ← docx_render_document d now
  pure ⟨ops, fixedZipDate⟩

theorem normBlockList_eq_mapM (l : List RawValue) :
    normBlockList l = l.mapM normalized_block := by
  induction l with
  | nil => simp [normBlockList, List.mapM, List.mapM.loop]
  | cons x rest ih =>
    rw [List.mapM_cons, ← ih]
    rw [normBlockList]

theorem normInlineList_eq_mapM (l : List RawValue) :
    normInlineList l = l.mapM normalized_inline := by
  induction l with
  | nil => simp [normInlineList, List.mapM, List.mapM.loop]
  | cons x rest ih =>
    rw [List.mapM_cons, ← ih]
    rw [normInlineList]

theorem normDictItems_mem : ∀ (l acc out : List (RawValue × RawValue)),
    normDictItems acc l = .ok out → ∀ q ∈ out,
      ((∃ p ∈ acc, p.1 = q.1) ∨ (∃ kv ∈ l, normalized_inline kv.1 = .ok q.1))
      ∧ ((∃ p ∈ acc, p.2 = q.2) ∨ (∃ kv ∈ l, normalized_block kv.2 = .ok q.2)) := by
  intro l
  induction l with
  | nil =>
    intro acc out h q hq
    simp only [normDictItems, except_pure_ok] at h
    subst h
    exact ⟨Or.inl ⟨q, hq, rfl⟩, Or.inl ⟨q, hq, rfl⟩⟩
  | cons p rest ih =>
    obtain ⟨k, v⟩ := p
    intro acc out h q hq
    simp only [normDictItems, except_bind_ok] at h
    obtain ⟨k2, hk2, v2, hv2, h⟩ := h
    by_cases hh : hashable k2 = true
    · rw [if_pos hh] at h
      have hrec := ih (dictInsert acc k2 v2) out h q hq
      constructor
      · rcases hrec.1 with ⟨p2, hp2, he⟩ | ⟨kv, hkv, he⟩
        · rcases dictInsert_mem k2 v2 p2 acc hp2 with hin | hnew
          · exact Or.inl ⟨p2, hin, he⟩
          · exact Or.inr ⟨(k, v), by simp, by rw [hk2, ← hnew.1, he]⟩
        · exact Or.inr ⟨kv, by simp [hkv], he⟩
      · rcases hrec.2 with ⟨p2, hp2, he⟩ | ⟨kv, hkv, he⟩
        · rcases dictInsert_mem k2 v2 p2 acc hp2 with hin | hnew
          · exact Or.inl ⟨p2, hin, he⟩
          · exact Or.inr ⟨(k, v), by simp, by rw [hv2, ← hnew.2, he]⟩
        · exact Or.inr ⟨kv, by simp [hkv], he⟩
    · rw [if_neg hh] at h
      simp [except_throw_ok] at h

/-- C1: Normalization is idempotent: whenever `normalized_block` succeeds on
a raw tree, running it again on the result returns the result unchanged, and
likewise for `normalized_inline` on a raw inline element. -/
theorem normalization_idempotent (T E C D : RawValue)
    (hb : normalized_block T = .ok C) (hi : normalized_inline E = .ok D) :
    normalized_block C = .ok C ∧ normalized_inline D = .ok D :=
  ⟨norm_block_stable C (norm_block_sound T C hb),
   norm_inline_stable D (norm_inline_sound E D hi)⟩

/-- C1 witness: idempotence observed on a concrete sugared tree (a bare list
holding a bare string) and a concrete bare inline string. -/
theorem normalization_idempotent_witness :
    normalized_block (.pyList [.pyStr "a"]) = .ok (.Sequence [.Paragraph (.Text "a")])
    ∧ normalized_block (.Sequence [.Paragraph (.Text "a")])
      = .ok (.Sequence [.Paragraph (.Text "a")])
    ∧ normalized_inline (.pyStr "x") = .ok (.Text "x")
    ∧ normalized_inline (.Text "x") = .ok (.Text "x") := by
  have h1 : normalized_block (.pyList [.pyStr "a"]) = .ok (.Sequence [.Paragraph (.Text "a")]) := by
    simp [normalized_block, normalized_inline, methodNormalized, normBlockList,
      pure, Except.pure, Bind.bind, Except.bind]
  have h2 : normalized_inline (.pyStr "x") = .ok (.Text "x") := by
    simp [normalized_inline, pure, Except.pure]
  have h := normalization_idempotent _ _ _ _ h1 h2
  exact ⟨h1, h.1, h2, h.2⟩

/-- C2: the sugar rules of normalization, as the spec states them: a bare
string becomes `Paragraph(Text(s))` in block position and `Text(s)` in
inline position; a bare list becomes a Sequence (block) or InlineSequence
(inline) of recursively normalized items; an InlineElement in block
position is wrapped in a Paragraph and normalized; and a bare dict becomes
a DefinitionList whose every key (resp. value) is the recursive inline
(resp. block) normalization of a key (resp. value) of the dict. -/
theorem sugar_rules (s : String) (items : List RawValue)
    (ps : List (RawValue × RawValue)) (e c : RawValue)
    (he : isInlineTop e = true)
    (hdict : normalized_block (.pyDict ps) = .ok c) :
    normalized_block (.pyStr s) = .ok (.Paragraph (.Text s))
    ∧ normalized_inline (.pyStr s) = .ok (.Text s)
    ∧ normalized_block (.pyList items) = RawValue.Sequence <$> items.mapM normalized_block
    ∧ normalized_inline (.pyList items) = RawValue.InlineSequence <$> items.mapM normalized_inline
    ∧ normalized_block e = RawValue.Paragraph <$> normalized_inline e
    ∧ ∃ qs, c = .DefinitionList qs
        ∧ ∀ q ∈ qs, (∃ kv ∈ ps, normalized_inline kv.1 = .ok q.1)
            ∧ (∃ kv ∈ ps, normalized_block kv.2 = .ok q.2) := by
  refine ⟨?_, ?_, ?_, ?_, ?_, ?_⟩
  · simp [normalized_block, normalized_inline, pure, Except.pure, Bind.bind, Except.bind]
  · simp [normalized_inline, pure, Except.pure]
  · rw [show normalized_block (.pyList items) = methodNormalized (.Sequence items) from by
      rw [normalized_block]]
    rw [methodNormalized, normBlockList_eq_mapM]
    cases h : items.mapM normalized_block <;>
      simp [h, Functor.map, Except.map, Bind.bind, Except.bind, pure, Except.pure]
  · rw [normalized_inline, normInlineList_eq_mapM]
    cases h : items.mapM normalized_inline <;>
      simp [h, Functor.map, Except.map, Bind.bind, Except.bind, pure, Except.pure]
  · cases e with
    | Text s2 =>
      rw [normalized_block]
      cases h : normalized_inline (.Text s2) <;>
        simp [h, Functor.map, Except.map, Bind.bind, Except.bind, pure, Except.pure]
    | InlineSequence l =>
      rw [normalized_block]
      cases h : normalized_inline (.InlineSequence l) <;>
        simp [h, Functor.map, Except.map, Bind.bind, Except.bind, pure, Except.pure]
    | Attachment io bn t =>
      rw [normalized_block]
      cases h : normalized_inline (.Attachment io bn t) <;>
        simp [h, Functor.map, Except.map, Bind.bind, Except.bind, pure, Except.pure]
    | pyStr a => simp [isInlineTop] at he
    | pyList a => simp [isInlineTop] at he
    | pyDict a => simp [isInlineTop] at he
    | Section a b => simp [isInlineTop] at he
    | Sequence a => simp [isInlineTop] at he
    | Paragraph a => simp [isInlineTop] at he
    | Table a b => simp [isInlineTop] at he
    | ElementaryTable a => simp [isInlineTop] at he
    | UnorderedList a => simp [isInlineTop] at he
    | DefinitionList a => simp [isInlineTop] at he
    | Image a b c2 => simp [isInlineTop] at he
    | TableCellSpan a => simp [isInlineTop] at he
    | unrecognized a => simp [isInlineTop] at he
  · rw [show normalized_block (.pyDict ps) = methodNormalized (.DefinitionList ps) from by
      rw [normalized_block]] at hdict
    simp only [methodNormalized, except_bind_ok, except_pure_ok] at hdict
    obtain ⟨out, hout, hc⟩ := hdict
    refine ⟨out, hc.symm, fun q hq => ?_⟩
    have h := normDictItems_mem ps [] out hout q hq
    rcases h.1 with ⟨p2, hp2, _⟩ | hk
    · cases hp2
    · rcases h.2 with ⟨p2, hp2, _⟩ | hv
      · cases hp2
      · exact ⟨hk, hv⟩

/-- C2 witness: the sugar rules observed on concrete inputs, a dict with a
string key and value among them. -/
theorem sugar_rules_witness :
    normalized_block (.pyStr "a") = .ok (.Paragraph (.Text "a"))
    ∧ normalized_block (.Text "t") = RawValue.Paragraph <$> normalized_inline (.Text "t")
    ∧ ∃ qs, RawValue.DefinitionList [(.Text "k", .Paragraph (.Text "v"))] = .DefinitionList qs
        ∧ ∀ q ∈ qs, (∃ kv ∈ [((RawValue.pyStr "k" : RawValue), (RawValue.pyStr "v" : RawValue))],
              normalized_inline kv.1 = .ok q.1)
            ∧ (∃ kv ∈ [((RawValue.pyStr "k" : RawValue), (RawValue.pyStr "v" : RawValue))],
              normalized_block kv.2 = .ok q.2) := by
  have hdict : normalized_block (.pyDict [(.pyStr "k", .pyStr "v")])
      = .ok (.DefinitionList [(.Text "k", .Paragraph (.Text "v"))]) := by
    simp [normalized_block, normalized_inline, methodNormalized, normDictItems, dictInsert,
      hashable, pure, Except.pure, Bind.bind, Except.bind]
  have h := sugar_rules "a" [] [(.pyStr "k", .pyStr "v")] (.Text "t")
    (.DefinitionList [(.Text "k", .Paragraph (.Text "v"))]) rfl hdict
  exact ⟨h.1, h.2.2.2.2.1, h.2.2.2.2.2⟩

/-- C3: no sugar survives normalization: every success of normalized_block,
normalized_inline and Document.normalized contains only the named canonical
variants at every depth (DefinitionList keys and values and ElementaryTable
cells included: `noSugar` recurses through them). -/
theorem no_sugar_survives (T E : RawValue) (d d2 : Document) (C D : RawValue)
    (hb : normalized_block T = .ok C) (hi : normalized_inline E = .ok D)
    (hd : Document.normalized d = .ok d2) :
    noSugar C = true ∧ noSugar D = true
    ∧ noSugar d2.title = true ∧ noSugar d2.subject = true ∧ noSugar d2.author = true
    ∧ noSugar d2.creator = true ∧ noSugar d2.creation_place = true
    ∧ noSugar d2.body = true := by
  have hC := noSugar_of_blockNF C (norm_block_sound T C hb)
  have hD := noSugar_of_methodNF (sizeOf D) D (le_refl _) (norm_inline_sound E D hi)
  simp only [Document.normalized, except_bind_ok, except_pure_ok] at hd
  obtain ⟨t, ht, s, hs, a, ha, cr, hcr, cp, hcp, b, hbody, hd2⟩ := hd
  subst hd2
  refine ⟨hC, hD, ?_, ?_, ?_, ?_, ?_, ?_⟩
  · exact noSugar_of_methodNF (sizeOf t) t (le_refl _) (norm_inline_sound _ _ ht)
  · exact noSugar_of_methodNF (sizeOf s) s (le_refl _) (norm_inline_sound _ _ hs)
  · exact noSugar_of_methodNF (sizeOf a) a (le_refl _) (norm_inline_sound _ _ ha)
  · exact noSugar_of_methodNF (sizeOf cr) cr (le_refl _) (norm_inline_sound _ _ hcr)
  · exact noSugar_of_methodNF (sizeOf cp) cp (le_refl _) (norm_inline_sound _ _ hcp)
  · exact noSugar_of_blockNF b (norm_block_sound _ _ hbody)

/-- C3 witness: a document whose every field carries sugar normalizes to a
fully canonical document. -/
theorem no_sugar_survives_witness :
    noSugar (.Sequence [.Paragraph (.Text "a")]) = true
    ∧ noSugar (.Text "T") = true := by
  have hb : normalized_block (.pyList [.pyStr "a"]) = .ok (.Sequence [.Paragraph (.Text "a")]) := by
    simp [normalized_block, normalized_inline, methodNormalized, normBlockList,
      pure, Except.pure, Bind.bind, Except.bind]
  have hi : normalized_inline (.pyStr "T") = .ok (.Text "T") := by
    simp [normalized_inline, pure, Except.pure]
  have hd : Document.normalized
      ⟨"en", .pyStr "T", .pyStr "T", .pyStr "T", .pyStr "T", ⟨2017, 1, 1, 0, 0, 0⟩,
        .pyStr "T", .pyList [.pyStr "a"]⟩
      = .ok ⟨"en", .Text "T", .Text "T", .Text "T", .Text "T", ⟨2017, 1, 1, 0, 0, 0⟩,
        .Text "T", .Sequence [.Paragraph (.Text "a")]⟩ := by
    simp [Document.normalized, hb, hi, pure, Except.pure, Bind.bind, Except.bind]
  have h := no_sugar_survives _ _ _ _ _ _ hb hi hd
  exact ⟨h.1, h.2.1⟩

/-- C6 counterexample: a `Paragraph` is a BlockElement, so in inline
position its runtime type matches none of the inline sugar or canonical
patterns, yet `normalized_inline` accepts it unchanged through the
`element.normalized()` fallback instead of failing. -/
theorem inline_position_block_element_accepted :
    normalized_inline (.Paragraph (.Text "x")) = .ok (.Paragraph (.Text "x")) := by
  simp [normalized_inline, methodNormalized, pure, Except.pure, Bind.bind, Except.bind]

/-- C6 amended: a value of a runtime type with no `normalized` method (a
foreign object in either position, or a bare dict in inline position) makes
normalization fail fatally with AttributeError and no partial tree is
returned — every successful normalization is fully canonical; but the
fallback branch accepts any object carrying a `normalized` method, so
canonical elements of the wrong universe for their position (for example a
block element in inline position) are normalized via their own method
rather than rejected. -/
theorem unrecognized_element_kind_failure (t : Nat) (ps : List (RawValue × RawValue))
    (T C : RawValue) (h : normalized_block T = .ok C) :
    normalized_block (.unrecognized t) = .error .attributeError
    ∧ normalized_inline (.unrecognized t) = .error .attributeError
    ∧ normalized_inline (.pyDict ps) = .error .attributeError
    ∧ noSugar C = true := by
  refine ⟨?_, ?_, ?_, noSugar_of_blockNF C (norm_block_sound T C h)⟩
  · have h1 : normalized_block (.unrecognized t) = methodNormalized (.unrecognized t) := by
      simp [normalized_block]
    rw [h1, methodNormalized]
    rfl
  · have h1 : normalized_inline (.unrecognized t) = methodNormalized (.unrecognized t) := by
      simp [normalized_inline]
    rw [h1, methodNormalized]
    rfl
  · have h1 : normalized_inline (.pyDict ps) = methodNormalized (.pyDict ps) := by
      simp [normalized_inline]
    rw [h1, methodNormalized]
    rfl

/-- C6 amended witness: the failure observed at a concrete foreign object
and a concrete successful normalization. -/
theorem unrecognized_element_kind_failure_witness :
    normalized_block (.unrecognized 7) = .error .attributeError
    ∧ noSugar (.Paragraph (.Text "a")) = true := by
  have hb : normalized_block (.pyStr "a") = .ok (.Paragraph (.Text "a")) := by
    simp [normalized_block, normalized_inline, pure, Except.pure, Bind.bind, Except.bind]
  have h := unrecognized_element_kind_failure 7 [] (.pyStr "a") (.Paragraph (.Text "a")) hb
  exact ⟨h.1, h.2.2.2⟩

/-- C8: `creation_place_and_date` is the plain-text projection of
creation_place, a comma separator, and the date component of creation_date
formatted YYYY-MM-DD; the time component (hour, minute, second) does not
influence the value. -/
theorem creation_place_and_date_correct (d : Document) (ps : String)
    (h : plain_string d.creation_place = .ok ps) (h2 m2 s2 : Nat) :
    d.creation_place_and_date = .ok (ps ++ ", " ++ strftimeYmd d.creation_date)
    ∧ Document.creation_place_and_date
        { d with creation_date :=
            { d.creation_date with hour := h2, minute := m2, second := s2 } }
      = d.creation_place_and_date
    ∧ strftimeYmd d.creation_date
      = natPad 4 d.creation_date.year ++ "-" ++ natPad 2 d.creation_date.month ++ "-"
        ++ natPad 2 d.creation_date.day := by
  refine ⟨?_, ?_, rfl⟩
  · simp [Document.creation_place_and_date, h, Bind.bind, Except.bind, pure, Except.pure]
  · simp [Document.creation_place_and_date, h, strftimeYmd, Bind.bind, Except.bind,
      pure, Except.pure]

/-- C8 witness: the derived value on a concrete document; the date renders
zero-padded and the time of day is dropped. -/
theorem creation_place_and_date_witness :
    Document.creation_place_and_date
      ⟨"en", .Text "T", .Text "S", .Text "A", .Text "C", ⟨2020, 1, 1, 12, 33, 45⟩,
        .Text "The Place", .Sequence []⟩
      = .ok "The Place, 2020-01-01" := by
  have h := creation_place_and_date_correct
    ⟨"en", .Text "T", .Text "S", .Text "A", .Text "C", ⟨2020, 1, 1, 12, 33, 45⟩,
      .Text "The Place", .Sequence []⟩ "The Place"
    (by simp [plain_string, pure, Except.pure]) 0 0 0
  rw [h.1]
  rfl

/-- The 2-row elementary table `[[A, COLSPAN], [B, C]]` of the spec's
concrete span scenario. -/
def demoTable : List (List RawValue) :=
  [[.Text "A", .TableCellSpan .column], [.Text "B", .Text "C"]]

/-- C5: the span methods compute exactly the spec's arithmetic —
`get_column_span` is one plus the count of consecutive column markers
immediately following the cell in its row, `get_row_span` one plus the
count of consecutive row markers below it in its column, `get_cell` answers
the absent sentinel (never an error) at any out-of-bounds index — and the
concrete scenario: in `[[A, COLSPAN], [B, C]]`, column_span(0,0) = 2,
column_span(1,0) = 1, cell (0,1) is the column marker, cell (5,5) is
absent. -/
theorem table_span_arithmetic (rows : List (List RawValue)) (ri ci ri2 ci2 : Int)
    (hoob : ri2 < 0 ∨ (rows.length : Int) ≤ ri2 ∨ ci2 < 0
      ∨ (((rows[ri2.toNat]?).getD []).length : Int) ≤ ci2) :
    get_column_span rows ri ci = spec_column_span rows ri ci
    ∧ get_row_span rows ri ci = spec_row_span rows ri ci
    ∧ get_cell rows ri2 ci2 = none
    ∧ get_column_span demoTable 0 0 = 2
    ∧ get_column_span demoTable 1 0 = 1
    ∧ get_cell demoTable 0 1 = some (.TableCellSpan .column)
    ∧ get_cell demoTable 5 5 = none := by
  refine ⟨get_column_span_eq_spec rows ri ci, get_row_span_eq_spec rows ri ci, ?_, ?_, ?_, ?_, ?_⟩
  · rw [get_cell]
    by_cases h1 : ri2 < 0 ∨ (rows.length : Int) ≤ ri2
    · rw [if_pos h1]
    · rw [if_neg h1, if_pos (by omega)]
  · rw [get_column_span_eq_spec]
    simp [spec_column_span, specColFrom, demoTable, List.takeWhile]
  · rw [get_column_span_eq_spec]
    simp [spec_column_span, specColFrom, demoTable, List.takeWhile]
  · simp [get_cell, demoTable]
  · simp [get_cell, demoTable]

/-- C5 witness: the theorem applied with the out-of-bounds index (5,5) of
the spec's scenario. -/
theorem table_span_arithmetic_witness :
    get_cell demoTable 5 5 = none ∧ get_column_span demoTable 0 0 = 2 :=
  have h := table_span_arithmetic demoTable 0 0 5 5 (by right; left; simp [demoTable])
  ⟨h.2.2.1, h.2.2.2.1⟩

/-- C10: for every table and any integer indices, both while loops reach
their exit condition within a finite number of iterations (an explicit fuel
bound suffices) and return a span of at least 1: each chain of span-marker
probes leaves the table bounds, where get_cell answers the absent
sentinel. -/
theorem span_loops_terminate (rows : List (List RawValue)) (ri ci : Int) :
    (∃ fuel, column_span_loop_fuel fuel rows ri ci 1 = some (get_column_span rows ri ci))
    ∧ (∃ fuel, row_span_loop_fuel fuel rows ri ci 1 = some (get_row_span rows ri ci))
    ∧ 1 ≤ get_column_span rows ri ci ∧ 1 ≤ get_row_span rows ri ci := by
  have hc := column_span_loop_fuel_eq rows ri ci 1
  have hr := row_span_loop_fuel_eq rows ri ci 1
  refine ⟨⟨specColFrom rows ri (ci + (1 : Nat)) + 1, hc⟩,
    ⟨specRowFrom rows ci (ri + (1 : Nat)) + 1, hr⟩, ?_, ?_⟩
  · rw [get_column_span_eq_spec, spec_column_span]
    omega
  · rw [get_row_span_eq_spec, spec_row_span]
    omega

theorem html_seq_singleton (x : RawValue) (lvl : Option Nat) :
    html_add_element (.Sequence [x]) lvl = html_add_element x lvl := by
  rw [show html_add_element (.Sequence [x]) lvl = html_seq_items [x] lvl from by
    rw [html_add_element]]
  rw [html_seq_items]
  cases h : html_add_element x lvl with
  | error e => simp [h, Bind.bind, Except.bind]
  | ok a => simp [h, html_seq_items, Bind.bind, Except.bind, pure, Except.pure]

theorem pdf_seq_singleton (x : RawValue) (lvl : Option Nat) :
    pdf_add_element (.Sequence [x]) lvl = pdf_add_element x lvl := by
  rw [show pdf_add_element (.Sequence [x]) lvl = pdf_seq_items [x] lvl false from by
    rw [pdf_add_element]]
  rw [pdf_seq_items]
  cases h : pdf_add_element x lvl with
  | error e => simp [h, Bind.bind, Except.bind]
  | ok r =>
    obtain ⟨ops, b⟩ := r
    simp [h, pdf_seq_items, Bind.bind, Except.bind, pure, Except.pure]

theorem docx_seq_singleton (x : RawValue) (ctx : DocxCtx) :
    docx_add_element (.Sequence [x]) ctx = docx_add_element x ctx := by
  rw [show docx_add_element (.Sequence [x]) ctx = docx_seq_items [x] ctx from by
    rw [docx_add_element]]
  rw [docx_seq_items]
  cases h : docx_add_element x ctx with
  | error e => simp [h, Bind.bind, Except.bind]
  | ok a => simp [h, docx_seq_items, Bind.bind, Except.bind, pure, Except.pure]

/-- C4: a singleton Sequence wrapper is invisible in the output of every
renderer: normalization turns `Sequence([X])` into the singleton sequence
of X's normal form, and each of the three renderers produces exactly the
same output primitives for that singleton as for the bare normalized
element (and hence, each backend's deterministic serialization of those
primitives is byte-identical). -/
theorem singleton_sequence_invisible (d : Document) (x c : RawValue) (now : PyDateTime)
    (h : normalized_block x = .ok c) :
    normalized_block (.Sequence [x]) = .ok (.Sequence [c])
    ∧ html_render_document { d with body := .Sequence [c] } now
      = html_render_document { d with body := c } now
    ∧ pdf_render_document { d with body := .Sequence [c] } now
      = pdf_render_document { d with body := c } now
    ∧ docx_render { d with body := .Sequence [c] } now
      = docx_render { d with body := c } now := by
  refine ⟨?_, ?_, ?_, ?_⟩
  · have h1 : normalized_block (.Sequence [x]) = methodNormalized (.Sequence [x]) := by
      simp [normalized_block]
    rw [h1, methodNormalized, normBlockList, h]
    simp [normBlockList, Bind.bind, Except.bind, pure, Except.pure]
  · simp only [html_render_document]
    rw [show html_head { d with body := RawValue.Sequence [c] } = html_head d from rfl,
      show html_head { d with body := c } = html_head d from rfl,
      show html_cover { d with body := RawValue.Sequence [c] } = html_cover d from rfl,
      show html_cover { d with body := c } = html_cover d from rfl,
      html_seq_singleton c (some 2)]
  · simp only [pdf_render_document]
    rw [show plain_string ({ d with body := RawValue.Sequence [c] } : Document).title
        = plain_string d.title from rfl,
      show plain_string ({ d with body := c } : Document).title = plain_string d.title from rfl,
      show plain_string ({ d with body := RawValue.Sequence [c] } : Document).subject
        = plain_string d.subject from rfl,
      show plain_string ({ d with body := c } : Document).subject
        = plain_string d.subject from rfl,
      show plain_string ({ d with body := RawValue.Sequence [c] } : Document).author
        = plain_string d.author from rfl,
      show plain_string ({ d with body := c } : Document).author
        = plain_string d.author from rfl,
      show plain_string ({ d with body := RawValue.Sequence [c] } : Document).creator
        = plain_string d.creator from rfl,
      show plain_string ({ d with body := c } : Document).creator
        = plain_string d.creator from rfl,
      show pdf_add_inline ({ d with body := RawValue.Sequence [c] } : Document).title
        = pdf_add_inline d.title from rfl,
      show pdf_add_inline ({ d with body := c } : Document).title
        = pdf_add_inline d.title from rfl,
      show pdf_add_inline ({ d with body := RawValue.Sequence [c] } : Document).subject
        = pdf_add_inline d.subject from rfl,
      show pdf_add_inline ({ d with body := c } : Document).subject
        = pdf_add_inline d.subject from rfl,
      show pdf_add_inline ({ d with body := RawValue.Sequence [c] } : Document).author
        = pdf_add_inline d.author from rfl,
      show pdf_add_inline ({ d with body := c } : Document).author
        = pdf_add_inline d.author from rfl,
      show Document.creation_place_and_date { d with body := RawValue.Sequence [c] }
        = d.creation_place_and_date from rfl,
      show Document.creation_place_and_date { d with body := c }
        = d.creation_place_and_date from rfl,
      pdf_seq_singleton c (some 0)]
  · simp only [docx_render, docx_render_document]
    rw [show plain_string ({ d with body := RawValue.Sequence [c] } : Document).title
        = plain_string d.title from rfl,
      show plain_string ({ d with body := c } : Document).title = plain_string d.title from rfl,
      show plain_string ({ d with body := RawValue.Sequence [c] } : Document).subject
        = plain_string d.subject from rfl,
      show plain_string ({ d with body := c } : Document).subject
        = plain_string d.subject from rfl,
      show plain_string ({ d with body := RawValue.Sequence [c] } : Document).author
        = plain_string d.author from rfl,
      show plain_string ({ d with body := c } : Document).author
        = plain_string d.author from rfl,
      show plain_string ({ d with body := RawValue.Sequence [c] } : Document).creator
        = plain_string d.creator from rfl,
      show plain_string ({ d with body := c } : Document).creator
        = plain_string d.creator from rfl,
      show Document.creation_place_and_date { d with body := RawValue.Sequence [c] }
        = d.creation_place_and_date from rfl,
      show Document.creation_place_and_date { d with body := c }
        = d.creation_place_and_date from rfl,
      docx_seq_singleton c ⟨some 1, none, false⟩]

/-- C4 witness: the invisibility of a singleton Sequence around a concrete
paragraph, in all three renderers. -/
theorem singleton_sequence_invisible_witness :
    normalized_block (.Sequence [.Paragraph (.Text "A")])
      = .ok (.Sequence [.Paragraph (.Text "A")])
    ∧ html_render_document
        ⟨"en", .Text "T", .Text "S", .Text "A", .Text "C", ⟨2017, 1, 1, 0, 0, 0⟩,
          .Text "P", .Sequence [.Paragraph (.Text "A")]⟩ ⟨2026, 10, 12, 0, 0, 0⟩
      = html_render_document
        ⟨"en", .Text "T", .Text "S", .Text "A", .Text "C", ⟨2017, 1, 1, 0, 0, 0⟩,
          .Text "P", .Paragraph (.Text "A")⟩ ⟨2026, 10, 12, 0, 0, 0⟩ := by
  have hx : normalized_block (.Paragraph (.Text "A")) = .ok (.Paragraph (.Text "A")) := by
    simp [normalized_block, normalized_inline, methodNormalized,
      pure, Except.pure, Bind.bind, Except.bind]
  have h := singleton_sequence_invisible
    ⟨"en", .Text "T", .Text "S", .Text "A", .Text "C", ⟨2017, 1, 1, 0, 0, 0⟩,
      .Text "P", .Sequence [.Paragraph (.Text "A")]⟩
    (.Paragraph (.Text "A")) (.Paragraph (.Text "A")) ⟨2026, 10, 12, 0, 0, 0⟩ hx
  exact ⟨h.1, h.2.1⟩

/-- C9: rendering is time-independent: the ambient wall-clock instant passed
to a render changes nothing in any renderer's output — the hypertext
`created` meta and both document-property blocks use the document's own
creation_date, and the word-processor package writer is patched to stamp
the fixed ZipInfo default date on every zip entry. -/
theorem rendering_time_independent (d : Document) (t1 t2 : PyDateTime) :
    html_render_document d t1 = html_render_document d t2
    ∧ pdf_render_document d t1 = pdf_render_document d t2
    ∧ docx_render d t1 = docx_render d t2 :=
  ⟨rfl, rfl, rfl⟩

/-- The demo table head `[[H, COLSPAN]]` with a two-column header cell. -/
def demoHeadRows : List (List RawValue) := [[.Text "H", .TableCellSpan .column]]

/-- The demo table body `[[A, COLSPAN], [B, C]]`. -/
def demoBodyRows : List (List RawValue) :=
  [[.Text "A", .TableCellSpan .column], [.Text "B", .Text "C"]]

/-- C7: the word-processor backend's table handler is stale: its first
statement reads `table_data.headings`, a field the `Table(head, body)`
dataclass it imports from doc_ast.py does not define, so every canonical
Table raises AttributeError there and no output cell is ever produced (it
would also index flat `.rows` and never skip span markers).  The hypertext
and page-layout backends do honor the contract on a concrete spanned table:
header cells carry the `th` tag (resp. land among the declared heading
rows), the computed column span 2 is emitted, and the span-marker cells
produce no output cell. -/
theorem table_rendering_contract (h b : RawValue) (ctx : DocxCtx) :
    docx_add_element (.Table h b) ctx = .error .attributeError
    ∧ html_add_element (.Table (.ElementaryTable demoHeadRows) (.ElementaryTable demoBodyRows))
        (some 2)
      = .ok [.el "table" [] none [
          .el "thead" [] none
            [.el "tr" [] none [.el "th" [("colspan", "2")] none [.el "span" [] (some "H") []]]],
          .el "tbody" [] none [
            .el "tr" [] none [.el "td" [("colspan", "2")] none [.el "span" [] (some "A") []]],
            .el "tr" [] none [.el "td" [] none [.el "span" [] (some "B") []],
              .el "td" [] none [.el "span" [] (some "C") []]]]]]
    ∧ pdf_add_element (.Table (.ElementaryTable demoHeadRows) (.ElementaryTable demoBodyRows))
        (some 0)
      = .ok ([.tableStart 1, .tableRow, .tableCell "H" 2 1, .tableRow, .tableCell "A" 2 1,
          .tableRow, .tableCell "B" 1 1, .tableCell "C" 1 1, .tableEnd], true) := by
  refine ⟨?_, ?_, ?_⟩
  · rw [docx_add_element]
    rfl
  · simp [html_add_element, html_elementary_table, html_row_cells, html_add_inline_element,
      get_column_span_eq_spec, get_row_span_eq_spec, spec_column_span, spec_row_span,
      specColFrom, specRowFrom, demoHeadRows, demoBodyRows, List.takeWhile,
      Bind.bind, Except.bind, pure, Except.pure, show toString (2 : Nat) = "2" from rfl]
  · simp [pdf_add_element, pdf_elementary_table, pdf_row_cells, plain_string,
      get_column_span_eq_spec, get_row_span_eq_spec, spec_column_span, spec_row_span,
      specColFrom, specRowFrom, demoHeadRows, demoBodyRows, List.takeWhile,
      Bind.bind, Except.bind, pure, Except.pure]

end RedTapeKit
